import Mathlib

/-!
Shallow embedding of the `tokenizer`, `html-parser` and `buf-iter` crates.

Bytes are modelled as `Nat` (only ASCII classification matters), buffers as
`List Nat`, and the Rust iterators as explicit state records.  Rust loops are
modelled as fuel-indexed structural recursions; the fuel supplied at every
call site (`buf.length - offset` for the byte-level loops, `buf.length + 1`
for the token-level grammar loops) dominates the number of iterations the
Rust loop can make, since every iteration consumes at least one byte of the
buffer.  Fallible Rust code (`Option` / `Result`) becomes `Option` / `Except`.
-/

namespace Tok

/-! ### `tokenizer` crate, module `span` -/

abbrev Byte := Nat

/-- Rust `Span` of the `tokenizer` crate: map of a character to actual buffer. -/
structure Span where
  offset : Nat
  len : Nat
  line : Nat
  col : Nat
deriving DecidableEq, Repr

/-- Rust `Span::new` -/
def Span.new (offset len line col : Nat) : Span := ⟨offset, len, line, col⟩

/-- Rust `Span::spanned_into`: set length to provided span
(`self.len = span.offset - self.offset + 1`). -/
def Span.spannedInto (s e : Span) : Span := { s with len := e.offset - s.offset + 1 }

/-- Rust `Span::is_unknown`: the source tests
`self.offset == 0 && self.line == 0 && self.line == 0 && self.col == 0`
(the `line` field is tested twice and `len` is never tested). -/
def Span.isUnknown (s : Span) : Bool :=
  s.offset == 0 && s.line == 0 && s.line == 0 && s.col == 0

/-- Rust `Span::unknown`: all fields zero. -/
def Span.unknown : Span := ⟨0, 0, 0, 0⟩

/-- Rust `Spanned::evaluate`: `&buf[span.offset..span.offset + span.len]`. -/
def Span.evaluate (s : Span) (buf : List Byte) : List Byte :=
  (buf.drop s.offset).take s.len

/-! ### `tokenizer` crate, byte classification -/

/-- Rust `u8::is_ascii_whitespace`: space, tab, newline, form feed, carriage return. -/
def isWhitespaceB (b : Byte) : Bool :=
  b == 32 || b == 9 || b == 10 || b == 12 || b == 13

/-- Rust `Ident::peek`: `matches!(byte, b'A'..=b'Z' | b'a'..=b'z' | b'_' | b'0'..=b'9')`. -/
def identPeek (b : Byte) : Bool :=
  (65 ≤ b && b ≤ 90) || (97 ≤ b && b ≤ 122) || b == 95 || (48 ≤ b && b ≤ 57)

/-! ### `tokenizer` crate, module `tokenizer`: `BufIter` -/

/-- Rust `tokenizer::BufIter`: iterator that tracks `Span` and yields a byte from the
source buffer.  The contained `slice::Iter` is modelled by the full buffer plus
the read offset. -/
structure BufIter where
  buf : List Byte
  lastSpan : Span
  offset : Nat
  line : Nat
  col : Nat
deriving DecidableEq, Repr

/-- Rust `BufIter::new` -/
def BufIter.new (buf : List Byte) : BufIter := ⟨buf, Span.new 0 1 1 1, 0, 1, 1⟩

/-- Rust `BufIter::peek` -/
def BufIter.peek (it : BufIter) : Option Byte := it.buf.get? it.offset

/-- Rust `BufIter::next` (the `Iterator` impl): yields `(span, byte)` and advances
offset, line and column. -/
def BufIter.next (it : BufIter) : Option (Span × Byte × BufIter) :=
  match it.buf.get? it.offset with
  | none => none
  | some b =>
    some (Span.new it.offset 1 it.line it.col, b,
      { it with
        lastSpan := Span.new it.offset 1 it.line it.col
        offset := it.offset + 1
        line := if b = 10 then it.line + 1 else it.line
        col := if b = 10 then 1 else it.col + 1 })

/-! ### `tokenizer` crate: tokens -/

/-- Rust `TokenTree` with the spans carried by `Ident`, `Punct`, `Whitespace`. -/
inductive TokenTree where
  | ident (span : Span)
  | punct (span : Span)
  | whitespace (span : Span)
deriving DecidableEq, Repr

/-- Rust `Spanned for TokenTree` -/
def TokenTree.span : TokenTree → Span
  | .ident s => s
  | .punct s => s
  | .whitespace s => s

/-- The shared loop shape of `Ident::parse` and `Whitespace::parse`: keep
consuming while the peeked byte satisfies the class predicate, extending the
span with `spanned_into` at every consumed byte.  Fuel-indexed; the crate
always calls it through `extendWhile` with fuel equal to the remaining byte
count, which the loop can never exceed. -/
def extendWhileFuel (pred : Byte → Bool) : Nat → Span → BufIter → Span × BufIter
  | 0, sp, it => (sp, it)
  | n + 1, sp, it =>
    match it.peek with
    | some b =>
      if pred b then
        match it.next with
        | some (endSp, _, it2) => extendWhileFuel pred n (sp.spannedInto endSp) it2
        | none => (sp, it)
      else (sp, it)
    | none => (sp, it)

def extendWhile (pred : Byte → Bool) (sp : Span) (it : BufIter) : Span × BufIter :=
  extendWhileFuel pred (it.buf.length - it.offset) sp it

/-- Rust `Ident::parse` -/
def identParse (it : BufIter) : Option (TokenTree × BufIter) :=
  match it.next with
  | none => none
  | some (sp, _, it1) =>
    let r := extendWhile identPeek sp it1
    some (.ident r.1, r.2)

/-- Rust `Whitespace::parse` -/
def whitespaceParse (it : BufIter) : Option (TokenTree × BufIter) :=
  match it.next with
  | none => none
  | some (sp, _, it1) =>
    let r := extendWhile isWhitespaceB sp it1
    some (.whitespace r.1, r.2)

/-- Rust `Punct::parse` -/
def punctParse (it : BufIter) : Option (TokenTree × BufIter) :=
  match it.next with
  | none => none
  | some (sp, _, it1) => some (.punct sp, it1)

/-- Rust `Tokenizer::next` (the `Iterator` impl): classify by the peeked byte,
whitespace first, then identifier, anything else punctuation.  In the source
the `expect("should be peeked before")` inside the parse functions cannot fail
because the byte was peeked; the `none` results of the parse functions are the
image of that impossible panic and never occur when `peek` succeeded. -/
def tokenizerNext (it : BufIter) : Option (TokenTree × BufIter) :=
  match it.peek with
  | none => none
  | some b =>
    if isWhitespaceB b then whitespaceParse it
    else if identPeek b then identParse it
    else punctParse it

/-- Draining the `Tokenizer` iterator, fuel-indexed. -/
def tokenizeFromFuel : Nat → BufIter → List TokenTree
  | 0, _ => []
  | n + 1, it =>
    match tokenizerNext it with
    | none => []
    | some (t, it') => t :: tokenizeFromFuel n it'

/-- The full token stream of a `Tokenizer` from a given state: every call to
`Tokenizer::next` consumes at least one byte, so the remaining byte count
bounds the number of tokens still to come. -/
def tokenizeFrom (it : BufIter) : List TokenTree :=
  tokenizeFromFuel (it.buf.length - it.offset) it

/-- Rust `tokenize` (crate root): `Tokenizer::new(src).collect()`. -/
def tokenize (buf : List Byte) : List TokenTree := tokenizeFrom (BufIter.new buf)

/-! ### `tokenizer` crate: `Peekable` lookahead buffer -/

/-- Rust `tokenizer::Peekable<N>`: the `[Option<TokenTree>; N]` array is a list of
options of length `N`; the wrapped `Tokenizer` is its `BufIter` state. -/
structure Peekable where
  iter : BufIter
  peeked : List (Option TokenTree)
deriving DecidableEq, Repr

/-- Rust `Peekable::new` (via `Tokenizer::peekable_tokens`): all slots `None`. -/
def Peekable.new (n : Nat) (it : BufIter) : Peekable := ⟨it, List.replicate n none⟩

/-- The `for i in 0..=n` fill loop of `Peekable::peek_n`: fill each still-empty
slot from the tokenizer; on exhaustion return `false` (the `?` early return). -/
def fillSlots : List Nat → Peekable → Bool × Peekable
  | [], p => (true, p)
  | i :: rest, p =>
    if (p.peeked.getD i none).isSome then fillSlots rest p
    else
      match tokenizerNext p.iter with
      | none => (false, p)
      | some (t, it') => fillSlots rest ⟨it', p.peeked.set i (some t)⟩

/-- Rust `Peekable::peek_n` (0-indexed): fill slots `0..=n`, then return slot `n`;
the `?` inside the loop makes the whole call return `None` on exhaustion. -/
def Peekable.peekN (p : Peekable) (n : Nat) : Option TokenTree × Peekable :=
  match fillSlots (List.range (n + 1)) p with
  | (true, p') => (p'.peeked.getD n none, p')
  | (false, p') => (none, p')

/-- Rust `Peekable::next` (the `Iterator` impl): take slot 0, shift every later slot
down by one (the sequential `mem::swap` loop leaves the emptied slot at the
back), and fall back to the tokenizer when slot 0 was empty. -/
def Peekable.next (p : Peekable) : Option TokenTree × Peekable :=
  match p.peeked.getD 0 none with
  | some t => (some t, { p with peeked := p.peeked.tail ++ [none] })
  | none =>
    match tokenizerNext p.iter with
    | none => (none, { p with peeked := p.peeked.tail ++ [none] })
    | some (t, it') => (some t, ⟨it', p.peeked.tail ++ [none]⟩)

/-- Rust `Spanned for Peekable`: span of the front buffered token if present,
otherwise the wrapped tokenizer's `last_span`. -/
def Peekable.span (p : Peekable) : Span :=
  match p.peeked.getD 0 none with
  | some t => t.span
  | none => p.iter.lastSpan

/-- ASCII bytes of a string literal, for concrete test inputs. -/
def strBytes (s : String) : List Byte := s.data.map Char.toNat

end Tok

namespace Html

open Tok

/-! ### `html-parser` crate -/

/-- Rust `html_parser::error::Error` -/
structure Error where
  span : Span
  msg : String
deriving DecidableEq, Repr

/-- The guard shape `Tree1::Punct(punct) if punct.evaluate(buf)[0] == b'X'`:
true iff the token is a `Punct` whose first evaluated byte is `b`. -/
def isPunctByte (buf : List Byte) (t : TokenTree) (b : Byte) : Bool :=
  match t with
  | .punct sp => (sp.evaluate buf).getD 0 0 == b
  | _ => false

/-- The `next!` macro: `iter.next()`, turning `None` into
`Error::new(iter.span(), "unexpected eof")` (span taken from the state after
the failed call, as in the source). -/
def nextT (p : Peekable) : Except Error (TokenTree × Peekable) :=
  match Peekable.next p with
  | (some t, p') => .ok (t, p')
  | (none, p') => .error ⟨Peekable.span p', "unexpected eof"⟩

/-- The `peek!` macro: `iter.peek()` (= `peek_n(0)`), turning `None` into the
same "unexpected eof" error. -/
def peekT (p : Peekable) : Except Error (TokenTree × Peekable) :=
  match Peekable.peekN p 0 with
  | (some t, p') => .ok (t, p')
  | (none, p') => .error ⟨Peekable.span p', "unexpected eof"⟩

/-- Rust `iter.next().expect(peeked!())`: consuming a token which an earlier peek
confirmed present.  The panic branch is modelled as a distinguished error that
never occurs in a run that respects the peek contract. -/
def expectNext (p : Peekable) : Except Error (TokenTree × Peekable) :=
  match Peekable.next p with
  | (some t, p') => .ok (t, p')
  | (none, p') => .error ⟨Peekable.span p', "panic: should be peeked before"⟩

/-- One step of the `peek_n(i)` pattern-check used by the `peek` functions:
peek slot `i` and test `Punct` with first byte `b`. -/
def peekPunct (p : Peekable) (buf : List Byte) (i : Nat) (b : Byte) : Bool × Peekable :=
  match Peekable.peekN p i with
  | (some t, p') => (isPunctByte buf t b, p')
  | (none, p') => (false, p')

/-- Fuel for the token-consuming grammar loops: each iteration consumes at
least one token hence at least one byte, so `buf.length + 1` iterations are
never reached. -/
def fuelOf (buf : List Byte) : Nat := buf.length + 1

/-- Error issued on fuel exhaustion; never produced by a run whose fuel bounds
the iteration count (all results stated on concrete inputs are computed with
sufficient fuel). -/
def fuelErr (p : Peekable) : Error := ⟨Peekable.span p, "out of fuel"⟩

/-- Rust `html_parser::Comment` -/
structure Comment where
  span : Span
deriving DecidableEq, Repr

/-- Rust `Comment::peek`: the next four tokens are punctuation `<`, `!`, `-`, `-`. -/
def Comment.peek (buf : List Byte) (p : Peekable) : Bool × Peekable :=
  match peekPunct p buf 0 60 with
  | (false, p) => (false, p)
  | (true, p) =>
  match peekPunct p buf 1 33 with
  | (false, p) => (false, p)
  | (true, p) =>
  match peekPunct p buf 2 45 with
  | (false, p) => (false, p)
  | (true, p) => peekPunct p buf 3 45

/-- The `'outer` scanning loop of `Comment::parse`.  `inner = false` is the
outer loop (looking for `-`, `-`); `inner = true` is the nested loop looking
for `>` (staying on `-`, restarting the outer loop on anything else). -/
def Comment.scanLoop (buf : List Byte) : Nat → Bool → Peekable → Except Error Peekable
  | 0, _, p => .error (fuelErr p)
  | n + 1, false, p => do
    let (t, p) ← nextT p
    if isPunctByte buf t 45 then do
      let (t2, p) ← nextT p
      if isPunctByte buf t2 45 then Comment.scanLoop buf n true p
      else Comment.scanLoop buf n false p
    else Comment.scanLoop buf n false p
  | n + 1, true, p => do
    let (t, p) ← nextT p
    if isPunctByte buf t 62 then .ok p
    else if isPunctByte buf t 45 then Comment.scanLoop buf n true p
    else Comment.scanLoop buf n false p

/-- Rust `Comment::parse`: consume the four peeked tokens, scan for `-`/`-`/`>`
consumed in order, then extend the first token's span to `iter.span()`. -/
def Comment.parse (buf : List Byte) (p : Peekable) : Except Error (Comment × Peekable) := do
  let (tree, p) ← expectNext p
  let (_, p) ← expectNext p
  let (_, p) ← expectNext p
  let (_, p) ← expectNext p
  let p ← Comment.scanLoop buf (fuelOf buf) false p
  .ok (⟨(TokenTree.span tree).spannedInto (Peekable.span p)⟩, p)

/-- Rust `html_parser::DOCTYPE` -/
structure DOCTYPE where
  span : Span
deriving DecidableEq, Repr

/-- Rust `DOCTYPE::peek`: the next two tokens are punctuation `<` then `!`. -/
def DOCTYPE.peek (buf : List Byte) (p : Peekable) : Bool × Peekable :=
  match peekPunct p buf 0 60 with
  | (false, p) => (false, p)
  | (true, p) => peekPunct p buf 1 33

/-- The scan loop of `DOCTYPE::parse`: consume until a `>` punctuation. -/
def DOCTYPE.scan (buf : List Byte) : Nat → Peekable → Except Error Peekable
  | 0, p => .error (fuelErr p)
  | n + 1, p => do
    let (t, p) ← nextT p
    if isPunctByte buf t 62 then .ok p else DOCTYPE.scan buf n p

/-- Rust `DOCTYPE::parse` -/
def DOCTYPE.parse (buf : List Byte) (p : Peekable) : Except Error (DOCTYPE × Peekable) := do
  let (tree, p) ← expectNext p
  let (_, p) ← expectNext p
  let p ← DOCTYPE.scan buf (fuelOf buf) p
  .ok (⟨(TokenTree.span tree).spannedInto (Peekable.span p)⟩, p)

/-- Rust `html_parser::ElementKind` -/
inductive ElementKind where
  | open
  | close
deriving DecidableEq, Repr

/-- Rust `html_parser::Element` -/
structure Element where
  kind : ElementKind
  span : Span
  tagSpan : Span
deriving DecidableEq, Repr

/-- Rust `Element::peek`: next token is punctuation `<`. -/
def Element.peek (buf : List Byte) (p : Peekable) : Bool × Peekable :=
  peekPunct p buf 0 60

/-- The close-element loop of `Element::parse`: whitespace is skipped, `>`
terminates, anything else is "expected `>`". -/
def Element.scanClose (buf : List Byte) : Nat → Peekable → Except Error Peekable
  | 0, p => .error (fuelErr p)
  | n + 1, p => do
    let (t, p) ← nextT p
    if isPunctByte buf t 62 then .ok p
    else
      match t with
      | .whitespace _ => Element.scanClose buf n p
      | _ => .error ⟨Peekable.span p, "expected `>`"⟩

/-- The key loop of `Attr::scan`: skip whitespace, stop at an identifier,
error on punctuation. -/
def Attr.keyLoop (_buf : List Byte) : Nat → Peekable → Except Error Peekable
  | 0, p => .error (fuelErr p)
  | n + 1, p => do
    let (t, p) ← nextT p
    match t with
    | .ident _ => .ok p
    | .whitespace _ => Attr.keyLoop _buf n p
    | .punct _ => .error ⟨Peekable.span p, "expected an identifier"⟩

/-- The `=` loop of `Attr::scan`.  Returns `true` when an `=` was consumed and
a value follows; `false` when the attribute is valueless (a `>` or another
identifier was met first, source arms 3 and 5) and the sub-production returns
immediately. -/
def Attr.eqLoop (buf : List Byte) : Nat → Peekable → Except Error (Bool × Peekable)
  | 0, p => .error (fuelErr p)
  | n + 1, p => do
    let (t, p') ← peekT p
    match t with
    | .punct _ =>
      if isPunctByte buf t 61 then do
        let (_, p2) ← expectNext p'
        .ok (true, p2)
      else if isPunctByte buf t 62 then .ok (false, p')
      else .error ⟨Peekable.span p', "expected `=` or `>`"⟩
    | .whitespace _ => do
      let (_, p2) ← expectNext p'
      Attr.eqLoop buf n p2
    | .ident _ => .ok (false, p')

/-- The open-quote loop of `Attr::scan`: skip whitespace until a `"` punct;
any identifier or other punctuation is an error. -/
def Attr.openQuoteLoop (buf : List Byte) : Nat → Peekable → Except Error Peekable
  | 0, p => .error (fuelErr p)
  | n + 1, p => do
    let (t, p') ← peekT p
    match t with
    | .punct _ =>
      if isPunctByte buf t 34 then do
        let (_, p2) ← expectNext p'
        .ok p2
      else .error ⟨Peekable.span p', "expected `\x22`"⟩
    | .ident _ => .error ⟨Peekable.span p', "expected `\x22`"⟩
    | .whitespace _ => do
      let (_, p2) ← expectNext p'
      Attr.openQuoteLoop buf n p2

/-- The close-quote loop of `Attr::scan`: consume anything until a `"`. -/
def Attr.closeQuoteLoop (buf : List Byte) : Nat → Peekable → Except Error Peekable
  | 0, p => .error (fuelErr p)
  | n + 1, p => do
    let (t, p) ← nextT p
    if isPunctByte buf t 34 then .ok p else Attr.closeQuoteLoop buf n p

/-- Rust `Attr::scan`: key, then `=` or valueless return, then quoted value. -/
def Attr.scan (buf : List Byte) (p : Peekable) : Except Error Peekable := do
  let p ← Attr.keyLoop buf (fuelOf buf) p
  let (proceed, p) ← Attr.eqLoop buf (fuelOf buf) p
  if proceed then do
    let p ← Attr.openQuoteLoop buf (fuelOf buf) p
    Attr.closeQuoteLoop buf (fuelOf buf) p
  else .ok p

/-- The attribute loop of `Element::parse` (open elements): peek; `>` ends the
attribute list, whitespace is consumed, anything else runs `Attr::scan`. -/
def Element.attrLoop (buf : List Byte) : Nat → Peekable → Except Error Peekable
  | 0, p => .error (fuelErr p)
  | n + 1, p => do
    let (t, p') ← peekT p
    if isPunctByte buf t 62 then .ok p'
    else
      match t with
      | .whitespace _ => do
        let (_, p2) ← expectNext p'
        Element.attrLoop buf n p2
      | _ => do
        let p2 ← Attr.scan buf p'
        Element.attrLoop buf n p2

/-- Rust `Element::parse` -/
def Element.parse (buf : List Byte) (p : Peekable) : Except Error (Element × Peekable) := do
  let (lt, p) ← expectNext p
  let (t1, p) ← nextT p
  let (tagSp, kind, p) ←
    (match t1 with
    | .ident sp => .ok (sp, ElementKind.open, p)
    | t =>
      if isPunctByte buf t 47 then do
        let (t2, p) ← nextT p
        match t2 with
        | .ident sp => .ok (sp, ElementKind.close, p)
        | _ => .error ⟨Peekable.span p, "expected an identifier"⟩
      else .error ⟨Peekable.span p, "expected `/` or an identifier"⟩ :
      Except Error (Span × ElementKind × Peekable))
  match kind with
  | .close => do
    let p ← Element.scanClose buf (fuelOf buf) p
    .ok (⟨.close, (TokenTree.span lt).spannedInto (Peekable.span p), tagSp⟩, p)
  | .open => do
    let p ← Element.attrLoop buf (fuelOf buf) p
    let (_, p) ← expectNext p
    .ok (⟨.open, (TokenTree.span lt).spannedInto (Peekable.span p), tagSp⟩, p)

/-- Rust `html_parser::Text` -/
structure Text where
  span : Span
deriving DecidableEq, Repr

/-- The scan loop of `Text::parse`: consume until the next token would be a
`<` punctuation or the input ends (the `peek` fills a slot without
consuming). -/
def Text.scan (buf : List Byte) : Nat → Peekable → Except Error Peekable
  | 0, p => .error (fuelErr p)
  | n + 1, p =>
    match Peekable.peekN p 0 with
    | (some t, p') =>
      if isPunctByte buf t 60 then .ok p'
      else do
        let (_, p2) ← expectNext p'
        Text.scan buf n p2
    | (none, p') => .ok p'

/-- Rust `Text::parse`: consume one token unconditionally, scan, then extend the
first token's span to `iter.span()`. -/
def Text.parse (buf : List Byte) (p : Peekable) : Except Error (Text × Peekable) := do
  let (tree, p) ← expectNext p
  let p ← Text.scan buf (fuelOf buf) p
  .ok (⟨(TokenTree.span tree).spannedInto (Peekable.span p)⟩, p)

/-- Rust `html_parser::SyntaxTree` -/
inductive SyntaxTree where
  | comment (c : Comment)
  | doctype (d : DOCTYPE)
  | element (e : Element)
  | text (t : Text)
deriving DecidableEq, Repr

/-- Spans of a node: the node span, plus the tag span for elements. -/
def SyntaxTree.spans : SyntaxTree → List Span
  | .comment c => [c.span]
  | .doctype d => [d.span]
  | .element e => [e.span, e.tagSpan]
  | .text t => [t.span]

/-- Rust `html_parser::tokenizer::Tokenizer::next`: the dispatch-by-peek driver,
priority order Comment, DOCTYPE, Element, Text-fallback, `None` when the
lookahead is exhausted. -/
def htmlNext (buf : List Byte) (p : Peekable) :
    Option (Except Error (SyntaxTree × Peekable)) :=
  match Comment.peek buf p with
  | (true, p) => some ((Comment.parse buf p).map fun r => (.comment r.1, r.2))
  | (false, p) =>
  match DOCTYPE.peek buf p with
  | (true, p) => some ((DOCTYPE.parse buf p).map fun r => (.doctype r.1, r.2))
  | (false, p) =>
  match Element.peek buf p with
  | (true, p) => some ((Element.parse buf p).map fun r => (.element r.1, r.2))
  | (false, p) =>
  match Peekable.peekN p 0 with
  | (some _, p) => some ((Text.parse buf p).map fun r => (.text r.1, r.2))
  | (none, _) => none

/-- Draining the grammar iterator until exhaustion or the first error, the way
`collect::<Result<Vec<_>>>` does, keeping the nodes produced before a
failure. -/
def drive (buf : List Byte) : Nat → Peekable → List SyntaxTree × Option Error
  | 0, p => ([], some (fuelErr p))
  | n + 1, p =>
    match htmlNext buf p with
    | none => ([], none)
    | some (.error e) => ([], some e)
    | some (.ok (node, p')) =>
      let r := drive buf n p'
      (node :: r.1, r.2)

/-- Run the whole grammar over a buffer: `Tokenizer::new(src)` with its
`Peekable1<4>` lookahead, drained to the end.  Every successful step consumes
at least one token, hence at least one byte, so `buf.length + 1` steps are
never reached. -/
def htmlTokenize (buf : List Byte) : List SyntaxTree × Option Error :=
  drive buf (fuelOf buf) (Peekable.new 4 (BufIter.new buf))

end Html

namespace BI

/-! ### `buf-iter` crate -/

abbrev Byte := Tok.Byte

/-- Rust `buf_iter::Span` (public fields). -/
structure Span where
  offset : Nat
  len : Nat
  line : Nat
  col : Nat
deriving DecidableEq, Repr

/-- Rust `Span::new` -/
def Span.new (offset len line col : Nat) : Span := ⟨offset, len, line, col⟩

/-- Rust `Span::unknown` -/
def Span.unknown : Span := ⟨0, 0, 0, 0⟩

/-- Rust `Span::is_unknown` (this crate's version does test all four fields). -/
def Span.isUnknown (s : Span) : Bool :=
  s.offset == 0 && s.len == 0 && s.line == 0 && s.col == 0

/-- Rust `Span::evaluate` -/
def Span.evaluate (s : Span) (buf : List Byte) : List Byte :=
  (buf.drop s.offset).take s.len

/-- Rust `Span::spanned` / `Span::into_spanned`: `self.len = span.offset - self.offset + 1`. -/
def Span.intoSpanned (s e : Span) : Span := { s with len := e.offset - s.offset + 1 }

/-- Rust `buf_iter::ErrorKind` (only the variants relevant to the cursor moves used
here). -/
inductive ErrorKind where
  | eof
deriving DecidableEq, Repr

/-- Rust `buf_iter::Error` -/
structure Error where
  kind : ErrorKind
  span : Span
deriving DecidableEq, Repr

/-- Rust `buf_iter::BufIter`: borrowed buffer plus offset/line/col. -/
structure BufIter where
  buf : List Byte
  offset : Nat
  line : Nat
  col : Nat
deriving DecidableEq, Repr

/-- Rust `BufIter::new`: offset 0, line 1, col 0. -/
def BufIter.new (buf : List Byte) : BufIter := ⟨buf, 0, 1, 0⟩

/-- Rust `BufIter::from_span`: position and line/col taken verbatim from the span. -/
def BufIter.fromSpan (buf : List Byte) (span : Span) : BufIter :=
  ⟨buf, span.offset, span.line, span.col⟩

/-- Rust `BufIter::fork`: `from_span(self.buf, Span::new(self.offset, 1, self.line, self.col))`. -/
def BufIter.fork (it : BufIter) : BufIter :=
  BufIter.fromSpan it.buf (Span.new it.offset 1 it.line it.col)

/-- Rust `BufIter::span`: `Span::new(self.offset - 1, 1, self.line, self.col)`; the
debug assertion for `offset == 0` is a programming-contract violation and all
uses below have `offset ≥ 1`. -/
def BufIter.span (it : BufIter) : Span :=
  Span.new (it.offset - 1) 1 it.line it.col

/-- Rust `BufIter::next`: advance by one byte, updating line/col (newline resets
column to 1 and increments line). -/
def BufIter.next (it : BufIter) : Except Error (Byte × BufIter) :=
  match it.buf.get? it.offset with
  | none => .error ⟨.eof, it.span⟩
  | some b =>
    .ok (b,
      { it with
        offset := it.offset + 1
        line := if b = 10 then it.line + 1 else it.line
        col := if b = 10 then 1 else it.col + 1 })

/-- Rust `k` consecutive `next` calls, stopping at the first error (used to state
the checkpoint/resume property). -/
def BufIter.advanceN (it : BufIter) : Nat → BufIter
  | 0 => it
  | n + 1 =>
    match BufIter.next it with
    | .ok (_, it') => BufIter.advanceN it' n
    | .error _ => it

/-- The byte returned by the `(j+1)`-th advance from a state (if any). -/
def BufIter.byteAt (it : BufIter) (j : Nat) : Option Byte :=
  match BufIter.next (BufIter.advanceN it j) with
  | .ok (b, _) => some b
  | .error _ => none

end BI

namespace Tok

/-! ### Verification-layer definitions over the embedded code -/

/-- Tokens held in the contiguous filled prefix of the lookahead slots. -/
def somesPrefix (xs : List (Option TokenTree)) : List TokenTree :=
  (xs.takeWhile Option.isSome).reduceOption

/-- Tokens still to be observed through a `Peekable`: the buffered prefix
followed by whatever the wrapped tokenizer will still yield. -/
def Peekable.toList (p : Peekable) : List TokenTree :=
  somesPrefix p.peeked ++ tokenizeFrom p.iter

/-- Contiguity of the lookahead slots: a filled prefix followed by empty
slots.  This is the shape `peek_n`'s in-order fill loop and `next`'s
shift-down always maintain. -/
def Contig (p : Peekable) : Prop :=
  ∃ (l : List TokenTree) (r : Nat), p.peeked = l.map some ++ List.replicate r none

/-- Well-formedness of a reachable tokenizer-crate `BufIter` state: the offset
stays within the buffer and `last_span` names the most recently consumed byte
(at the initial state, the placeholder `Span::new(0, 1, 1, 1)`). -/
def ItWf (it : BufIter) : Prop :=
  it.offset ≤ it.buf.length ∧ it.lastSpan.offset + 1 = max it.offset 1 ∧ it.lastSpan.len = 1

/-- Tokens tile the half-open byte range `[pos, q)`: each token's span starts
where the previous one ended and has positive length. -/
def chainSeg : Nat → List TokenTree → Nat → Prop
  | pos, [], q => pos = q
  | pos, t :: ts, q => (TokenTree.span t).offset = pos ∧ 1 ≤ (TokenTree.span t).len ∧
      chainSeg (pos + (TokenTree.span t).len) ts q

/-- Invariant tying a `Peekable` state to the position `pos` of the next
unconsumed token: contiguous slots of the capacity-4 buffer, well-formed
wrapped iterator over `buf`, and the buffered tokens tiling `[pos, offset)`. -/
def GInv (buf : List Byte) (pos : Nat) (p : Peekable) : Prop :=
  Contig p ∧ p.peeked.length = 4 ∧ p.iter.buf = buf ∧ ItWf p.iter ∧
    chainSeg pos (somesPrefix p.peeked) p.iter.offset

/-- One client operation on the lookahead buffer. -/
inductive Op where
  | peekAt (n : Nat)
  | nextOp
deriving DecidableEq, Repr

/-- Number of `next` calls in an operation sequence. -/
def countNexts : List Op → Nat
  | [] => 0
  | .peekAt _ :: rest => countNexts rest
  | .nextOp :: rest => countNexts rest + 1

/-- Run an interleaving of `peek_n`/`next` calls against a `Peekable`,
recording the result of every `next` call. -/
def runOps : List Op → Peekable → List (Option TokenTree) × Peekable
  | [], p => ([], p)
  | .peekAt n :: rest, p => runOps rest (Peekable.peekN p n).2
  | .nextOp :: rest, p =>
    match Peekable.next p with
    | (r, p') =>
      match runOps rest p' with
      | (rs, p'') => (r :: rs, p'')

/-- Results of `k` direct calls to `Tokenizer::next` with no buffering. -/
def directNexts : Nat → BufIter → List (Option TokenTree)
  | 0, _ => []
  | k + 1, it =>
    match tokenizerNext it with
    | none => none :: directNexts k it
    | some (t, it') => some t :: directNexts k it'

/-- First `k` elements of a token list as `next`-call results, padded with
`none` past the end. -/
def outsOf : Nat → List TokenTree → List (Option TokenTree)
  | 0, _ => []
  | k + 1, [] => none :: outsOf k []
  | k + 1, t :: ts => some t :: outsOf k ts

end Tok

/-! ## Supporting lemmas: the byte-level tokenizer -/

namespace Tok

theorem BufIter.peek_some_lt {it : BufIter} {b : Byte} (h : it.peek = some b) :
    it.offset < it.buf.length :=
  (List.get?_eq_some.mp h).1

theorem BufIter.peek_none_le {it : BufIter} (h : it.peek = none) :
    it.buf.length ≤ it.offset :=
  List.get?_eq_none.mp h

theorem BufIter.peek_getElem {it : BufIter} {b : Byte} (h : it.peek = some b)
    (hlt : it.offset < it.buf.length) : it.buf[it.offset] = b := by
  have h2 : it.buf[it.offset]? = some b := by
    rw [← List.get?_eq_getElem?]; exact h
  rw [List.getElem?_eq_getElem hlt] at h2
  exact Option.some.inj h2

theorem BufIter.next_of_peek {it : BufIter} {b : Byte} (h : it.peek = some b) :
    it.next = some (Span.new it.offset 1 it.line it.col, b,
      { it with
        lastSpan := Span.new it.offset 1 it.line it.col
        offset := it.offset + 1
        line := if b = 10 then it.line + 1 else it.line
        col := if b = 10 then 1 else it.col + 1 }) := by
  unfold BufIter.next
  rw [show it.buf.get? it.offset = some b from h]

theorem BufIter.next_of_peek_none {it : BufIter} (h : it.peek = none) :
    it.next = none := by
  unfold BufIter.next
  rw [show it.buf.get? it.offset = none from h]

theorem BufIter.next_some {it : BufIter} {sp : Span} {b : Byte} {it' : BufIter}
    (h : it.next = some (sp, b, it')) :
    it'.buf = it.buf ∧ it'.offset = it.offset + 1 ∧ it.offset < it.buf.length := by
  unfold BufIter.next at h
  cases hg : it.buf.get? it.offset with
  | none => rw [hg] at h; exact absurd h (by simp)
  | some c =>
    rw [hg] at h
    simp only [Option.some.injEq, Prod.mk.injEq] at h
    obtain ⟨h1, h2, h3⟩ := h
    exact ⟨by rw [← h3], by rw [← h3], (List.get?_eq_some.mp hg).1⟩

theorem ItWf.next {it : BufIter} {b : Byte} (_hwf : ItWf it) (h : it.peek = some b) :
    ItWf { it with
      lastSpan := Span.new it.offset 1 it.line it.col
      offset := it.offset + 1
      line := if b = 10 then it.line + 1 else it.line
      col := if b = 10 then 1 else it.col + 1 } := by
  refine ⟨BufIter.peek_some_lt h, ?_, rfl⟩
  simp [Span.new]

/-- Behaviour of the run-extension loop from a well-formed state whose span
ends exactly at the read position: it consumes precisely the leading bytes
satisfying the predicate, and the extended span keeps tracking the position. -/
theorem extendWhileFuel_spec (pred : Byte → Bool) :
    ∀ (n : Nat) (sp : Span) (it : BufIter), ItWf it →
      it.buf.length - it.offset ≤ n →
      sp.offset + sp.len = it.offset → 1 ≤ sp.len →
      ∃ sp' it', extendWhileFuel pred n sp it = (sp', it') ∧
        sp'.offset = sp.offset ∧ sp'.line = sp.line ∧ sp'.col = sp.col ∧
        1 ≤ sp'.len ∧ sp'.offset + sp'.len = it'.offset ∧
        it'.buf = it.buf ∧ ItWf it' ∧
        it'.offset = it.offset + ((it.buf.drop it.offset).takeWhile pred).length := by
  intro n
  induction n with
  | zero =>
    intro sp it hwf hn hsp hlen
    have hoff : it.buf.length ≤ it.offset := by omega
    refine ⟨sp, it, rfl, rfl, rfl, rfl, hlen, hsp, rfl, hwf, ?_⟩
    rw [List.drop_eq_nil_of_le hoff]
    simp
  | succ n ih =>
    intro sp it hwf hn hsp hlen
    cases hp : it.peek with
    | none =>
      have hoff : it.buf.length ≤ it.offset := BufIter.peek_none_le hp
      refine ⟨sp, it, ?_, rfl, rfl, rfl, hlen, hsp, rfl, hwf, ?_⟩
      · simp only [extendWhileFuel, hp]
      · rw [List.drop_eq_nil_of_le hoff]
        simp
    | some b =>
      have hlt : it.offset < it.buf.length := BufIter.peek_some_lt hp
      have hdrop : it.buf.drop it.offset = b :: it.buf.drop (it.offset + 1) := by
        rw [List.drop_eq_getElem_cons hlt, BufIter.peek_getElem hp hlt]
      by_cases hb : pred b = true
      · have hnext := BufIter.next_of_peek hp
        obtain ⟨sp', it', heq, ho, hl, hc, hlen', htrack, hbuf, hwf', hoff'⟩ :=
          ih (sp.spannedInto (Span.new it.offset 1 it.line it.col))
            { it with
              lastSpan := Span.new it.offset 1 it.line it.col
              offset := it.offset + 1
              line := if b = 10 then it.line + 1 else it.line
              col := if b = 10 then 1 else it.col + 1 }
            (hwf.next hp) (by simp; omega)
            (by simp [Span.spannedInto, Span.new]; omega)
            (by simp [Span.spannedInto, Span.new])
        refine ⟨sp', it', ?_, ?_, ?_, ?_, hlen', htrack, by rw [hbuf], hwf', ?_⟩
        · simp only [extendWhileFuel, hp, hb, if_true, hnext]
          exact heq
        · rw [ho]; simp [Span.spannedInto]
        · rw [hl]; simp [Span.spannedInto]
        · rw [hc]; simp [Span.spannedInto]
        · rw [hoff']
          rw [hdrop, List.takeWhile_cons, if_pos hb]
          simp
          omega
      · refine ⟨sp, it, ?_, rfl, rfl, rfl, hlen, hsp, rfl, hwf, ?_⟩
        · simp only [extendWhileFuel, hp, hb, Bool.false_eq_true, if_false]
        · rw [hdrop, List.takeWhile_cons, if_neg hb]
          simp

theorem extendWhileFuel_mono (pred : Byte → Bool) (n : Nat) :
    ∀ (sp : Span) (it : BufIter), (extendWhileFuel pred n sp it).2.buf = it.buf ∧
      it.offset ≤ (extendWhileFuel pred n sp it).2.offset := by
  induction n with
  | zero => exact fun sp it => ⟨rfl, Nat.le_refl _⟩
  | succ n ih =>
    intro sp it
    unfold extendWhileFuel
    split
    · split
      · split
        · next endSp b2 it2 hn =>
          obtain ⟨h1, h2, h3⟩ := BufIter.next_some hn
          obtain ⟨g1, g2⟩ := ih (sp.spannedInto endSp) it2
          exact ⟨by rw [g1, h1], by omega⟩
        · exact ⟨rfl, Nat.le_refl _⟩
      · exact ⟨rfl, Nat.le_refl _⟩
    · exact ⟨rfl, Nat.le_refl _⟩

theorem whitespaceParse_eq {it : BufIter} {b : Byte} (hp : it.peek = some b) :
    whitespaceParse it =
      some (.whitespace (extendWhile isWhitespaceB (Span.new it.offset 1 it.line it.col)
              { it with
                lastSpan := Span.new it.offset 1 it.line it.col
                offset := it.offset + 1
                line := if b = 10 then it.line + 1 else it.line
                col := if b = 10 then 1 else it.col + 1 }).1,
            (extendWhile isWhitespaceB (Span.new it.offset 1 it.line it.col)
              { it with
                lastSpan := Span.new it.offset 1 it.line it.col
                offset := it.offset + 1
                line := if b = 10 then it.line + 1 else it.line
                col := if b = 10 then 1 else it.col + 1 }).2) := by
  unfold whitespaceParse
  rw [BufIter.next_of_peek hp]

theorem identParse_eq {it : BufIter} {b : Byte} (hp : it.peek = some b) :
    identParse it =
      some (.ident (extendWhile identPeek (Span.new it.offset 1 it.line it.col)
              { it with
                lastSpan := Span.new it.offset 1 it.line it.col
                offset := it.offset + 1
                line := if b = 10 then it.line + 1 else it.line
                col := if b = 10 then 1 else it.col + 1 }).1,
            (extendWhile identPeek (Span.new it.offset 1 it.line it.col)
              { it with
                lastSpan := Span.new it.offset 1 it.line it.col
                offset := it.offset + 1
                line := if b = 10 then it.line + 1 else it.line
                col := if b = 10 then 1 else it.col + 1 }).2) := by
  unfold identParse
  rw [BufIter.next_of_peek hp]

theorem punctParse_eq {it : BufIter} {b : Byte} (hp : it.peek = some b) :
    punctParse it =
      some (.punct (Span.new it.offset 1 it.line it.col),
        { it with
          lastSpan := Span.new it.offset 1 it.line it.col
          offset := it.offset + 1
          line := if b = 10 then it.line + 1 else it.line
          col := if b = 10 then 1 else it.col + 1 }) := by
  unfold punctParse
  rw [BufIter.next_of_peek hp]

theorem tokenizerNext_none_of_peek {it : BufIter} (hp : it.peek = none) :
    tokenizerNext it = none := by
  unfold tokenizerNext
  rw [hp]

theorem tokenizerNext_of_peek {it : BufIter} {b : Byte} (hp : it.peek = some b) :
    tokenizerNext it =
      if isWhitespaceB b = true then whitespaceParse it
      else if identPeek b = true then identParse it else punctParse it := by
  unfold tokenizerNext
  rw [hp]

theorem tokenizerNext_advances {it : BufIter} {t : TokenTree} {it' : BufIter}
    (h : tokenizerNext it = some (t, it')) :
    it'.buf = it.buf ∧ it.offset < it'.offset := by
  cases hp : it.peek with
  | none => rw [tokenizerNext_none_of_peek hp] at h; exact absurd h (by simp)
  | some b =>
    rw [tokenizerNext_of_peek hp] at h
    by_cases hw : isWhitespaceB b = true
    · rw [if_pos hw, whitespaceParse_eq hp] at h
      simp only [Option.some.injEq, Prod.mk.injEq] at h
      obtain ⟨g1, g2⟩ := extendWhileFuel_mono isWhitespaceB _
        (Span.new it.offset 1 it.line it.col)
        { it with
          lastSpan := Span.new it.offset 1 it.line it.col
          offset := it.offset + 1
          line := if b = 10 then it.line + 1 else it.line
          col := if b = 10 then 1 else it.col + 1 }
      rw [← h.2]
      exact ⟨g1, by simp [extendWhile] at g2 ⊢; omega⟩
    · rw [if_neg hw] at h
      by_cases hi : identPeek b = true
      · rw [if_pos hi, identParse_eq hp] at h
        simp only [Option.some.injEq, Prod.mk.injEq] at h
        obtain ⟨g1, g2⟩ := extendWhileFuel_mono identPeek _
          (Span.new it.offset 1 it.line it.col)
          { it with
            lastSpan := Span.new it.offset 1 it.line it.col
            offset := it.offset + 1
            line := if b = 10 then it.line + 1 else it.line
            col := if b = 10 then 1 else it.col + 1 }
        rw [← h.2]
        exact ⟨g1, by simp [extendWhile] at g2 ⊢; omega⟩
      · rw [if_neg hi, punctParse_eq hp] at h
        simp only [Option.some.injEq, Prod.mk.injEq] at h
        rw [← h.2]
        exact ⟨rfl, by simp⟩

theorem tokenizerNext_none_iff {it : BufIter} :
    tokenizerNext it = none ↔ it.peek = none := by
  constructor
  · intro h
    cases hp : it.peek with
    | none => rfl
    | some b =>
      rw [tokenizerNext_of_peek hp] at h
      by_cases hw : isWhitespaceB b = true
      · rw [if_pos hw, whitespaceParse_eq hp] at h; exact absurd h (by simp)
      · rw [if_neg hw] at h
        by_cases hi : identPeek b = true
        · rw [if_pos hi, identParse_eq hp] at h; exact absurd h (by simp)
        · rw [if_neg hi, punctParse_eq hp] at h; exact absurd h (by simp)
  · intro h
    unfold tokenizerNext
    rw [h]

/-- Next-state of a consumed byte, as produced by `BufIter.next_of_peek`. -/
theorem tokenizerNext_spec {it : BufIter} {t : TokenTree} {it' : BufIter}
    (hwf : ItWf it) (h : tokenizerNext it = some (t, it')) :
    (TokenTree.span t).offset = it.offset ∧ 1 ≤ (TokenTree.span t).len ∧
      it'.offset = it.offset + (TokenTree.span t).len ∧ it'.buf = it.buf ∧ ItWf it' := by
  cases hp : it.peek with
  | none => rw [tokenizerNext_none_of_peek hp] at h; exact absurd h (by simp)
  | some b =>
    rw [tokenizerNext_of_peek hp] at h
    have hstep : ItWf { it with
        lastSpan := Span.new it.offset 1 it.line it.col
        offset := it.offset + 1
        line := if b = 10 then it.line + 1 else it.line
        col := if b = 10 then 1 else it.col + 1 } := hwf.next hp
    by_cases hw : isWhitespaceB b = true
    · rw [if_pos hw, whitespaceParse_eq hp] at h
      obtain ⟨sp', it2, heq, ho, hl, hc, hlen', htrack, hbuf, hwf', hoff'⟩ :=
        extendWhileFuel_spec isWhitespaceB _
          (Span.new it.offset 1 it.line it.col) _ hstep (Nat.le_refl _)
          (by simp [Span.new]) (by simp [Span.new])
      rw [show extendWhile isWhitespaceB (Span.new it.offset 1 it.line it.col) _ = (sp', it2)
        from heq] at h
      simp only [Option.some.injEq, Prod.mk.injEq] at h
      rw [← h.1, ← h.2]
      simp only [TokenTree.span]
      simp [Span.new] at ho hl hc hoff' hbuf
      exact ⟨ho, hlen', by omega, by rw [hbuf], hwf'⟩
    · rw [if_neg hw] at h
      by_cases hi : identPeek b = true
      · rw [if_pos hi, identParse_eq hp] at h
        obtain ⟨sp', it2, heq, ho, hl, hc, hlen', htrack, hbuf, hwf', hoff'⟩ :=
          extendWhileFuel_spec identPeek _
            (Span.new it.offset 1 it.line it.col) _ hstep (Nat.le_refl _)
            (by simp [Span.new]) (by simp [Span.new])
        rw [show extendWhile identPeek (Span.new it.offset 1 it.line it.col) _ = (sp', it2)
          from heq] at h
        simp only [Option.some.injEq, Prod.mk.injEq] at h
        rw [← h.1, ← h.2]
        simp only [TokenTree.span]
        simp [Span.new] at ho hl hc hoff' hbuf
        exact ⟨ho, hlen', by omega, by rw [hbuf], hwf'⟩
      · rw [if_neg hi, punctParse_eq hp] at h
        simp only [Option.some.injEq, Prod.mk.injEq] at h
        rw [← h.1, ← h.2]
        simp only [TokenTree.span]
        refine ⟨rfl, ?_, ?_, trivial, hwf.next hp⟩
        · simp [Span.new]
        · simp [Span.new]

theorem tokenizeFromFuel_irrel :
    ∀ (n m : Nat) (it : BufIter), it.buf.length - it.offset ≤ n →
      it.buf.length - it.offset ≤ m →
      tokenizeFromFuel n it = tokenizeFromFuel m it := by
  intro n
  induction n with
  | zero =>
    intro m it hn _
    have hnone : tokenizerNext it = none :=
      tokenizerNext_none_of_peek (List.get?_eq_none.mpr (by omega))
    cases m with
    | zero => rfl
    | succ m => simp only [tokenizeFromFuel, hnone]
  | succ n ih =>
    intro m it hn hm
    cases m with
    | zero =>
      have hnone : tokenizerNext it = none :=
        tokenizerNext_none_of_peek (List.get?_eq_none.mpr (by omega))
      simp only [tokenizeFromFuel, hnone]
    | succ m =>
      simp only [tokenizeFromFuel]
      cases hnx : tokenizerNext it with
      | none => rfl
      | some r =>
        obtain ⟨t, it'⟩ := r
        obtain ⟨hbuf, hoff⟩ := tokenizerNext_advances hnx
        show t :: tokenizeFromFuel n it' = t :: tokenizeFromFuel m it'
        rw [ih m it' (by rw [hbuf]; omega) (by rw [hbuf]; omega)]

theorem tokenizeFrom_cons {it : BufIter} {t : TokenTree} {it' : BufIter}
    (h : tokenizerNext it = some (t, it')) :
    tokenizeFrom it = t :: tokenizeFrom it' := by
  obtain ⟨hbuf, hoff⟩ := tokenizerNext_advances h
  have hlt : it.offset < it.buf.length := by
    rcases hp : it.peek with _ | b
    · rw [tokenizerNext_none_of_peek hp] at h; exact absurd h (by simp)
    · exact BufIter.peek_some_lt hp
  unfold tokenizeFrom
  have h1 : it.buf.length - it.offset = (it.buf.length - it.offset - 1) + 1 := by omega
  rw [h1]
  simp only [tokenizeFromFuel, h]
  rw [tokenizeFromFuel_irrel (it.buf.length - it.offset - 1) (it'.buf.length - it'.offset) it'
    (by rw [hbuf]; omega) (Nat.le_refl _)]

theorem tokenizeFrom_nil {it : BufIter} (h : tokenizerNext it = none) :
    tokenizeFrom it = [] := by
  unfold tokenizeFrom
  cases hr : it.buf.length - it.offset with
  | zero => rfl
  | succ k => simp only [tokenizeFromFuel, h]

theorem chainSeg_le {l : List TokenTree} : ∀ {pos q : Nat}, chainSeg pos l q → pos ≤ q := by
  induction l with
  | nil => intro pos q h; exact Nat.le_of_eq h
  | cons t ts ih =>
    intro pos q h
    obtain ⟨h1, h2, h3⟩ := h
    have := ih h3
    omega

theorem chainSeg_append_one {l : List TokenTree} :
    ∀ {pos q : Nat} {t : TokenTree}, chainSeg pos l q → (TokenTree.span t).offset = q →
      1 ≤ (TokenTree.span t).len →
      chainSeg pos (l ++ [t]) (q + (TokenTree.span t).len) := by
  induction l with
  | nil =>
    intro pos q t h h1 h2
    have hq : pos = q := h
    subst hq
    exact ⟨h1, h2, rfl⟩
  | cons u us ih =>
    intro pos q t h h1 h2
    obtain ⟨g1, g2, g3⟩ := h
    exact ⟨g1, g2, ih g3 h1 h2⟩

theorem chainSeg_mem {l : List TokenTree} :
    ∀ {pos q : Nat} {t : TokenTree}, chainSeg pos l q → t ∈ l →
      pos ≤ (TokenTree.span t).offset ∧ 1 ≤ (TokenTree.span t).len ∧
        (TokenTree.span t).offset + (TokenTree.span t).len ≤ q := by
  induction l with
  | nil => intro pos q t _ hm; exact absurd hm (by simp)
  | cons u us ih =>
    intro pos q t h hm
    obtain ⟨g1, g2, g3⟩ := h
    rcases List.mem_cons.mp hm with hm | hm
    · subst hm
      have := chainSeg_le g3
      exact ⟨Nat.le_of_eq g1.symm, g2, by omega⟩
    · have := ih g3 hm
      omega

/-- Tokens of the stream from a well-formed state tile the rest of the buffer,
fuel-generalised. -/
theorem tokenizeFromFuel_chainSeg :
    ∀ (n : Nat) (it : BufIter), ItWf it → it.buf.length - it.offset ≤ n →
      chainSeg it.offset (tokenizeFromFuel n it) it.buf.length := by
  intro n
  induction n with
  | zero =>
    intro it hwf hn
    have : it.offset = it.buf.length := by
      obtain ⟨h1, _, _⟩ := hwf
      omega
    exact this
  | succ n ih =>
    intro it hwf hn
    simp only [tokenizeFromFuel]
    cases hnx : tokenizerNext it with
    | none =>
      have hp : it.peek = none := tokenizerNext_none_iff.mp hnx
      have := BufIter.peek_none_le hp
      obtain ⟨h1, _, _⟩ := hwf
      exact le_antisymm h1 this
    | some r =>
      obtain ⟨t, it'⟩ := r
      obtain ⟨ho, hlen, hoff, hbuf, hwf'⟩ := tokenizerNext_spec hwf hnx
      refine ⟨ho, hlen, ?_⟩
      have := ih it' hwf' (by rw [hbuf]; omega)
      rw [hbuf] at this
      rw [← hoff]
      exact this

theorem tokenizeFrom_chainSeg {it : BufIter} (hwf : ItWf it) :
    chainSeg it.offset (tokenizeFrom it) it.buf.length :=
  tokenizeFromFuel_chainSeg _ it hwf (Nat.le_refl _)

end Tok

/-! ## Claims about `Span` mutation and classification -/

/-- C3: extending a span to a later span `S` sets exactly
`len := S.offset - offset + 1` (in both the tokenizer crate's `spanned_into`
and the buf-iter crate's `spanned`/`into_spanned`), and extending a span with
`offset = 2, len = 1` to a later span with `offset = 9` yields `len = 8`. -/
theorem claim_C3 :
    (∀ sp e : Tok.Span, sp.offset ≤ e.offset →
      Tok.Span.spannedInto sp e =
        Tok.Span.new sp.offset (e.offset - sp.offset + 1) sp.line sp.col) ∧
    (∀ sp e : BI.Span, sp.offset ≤ e.offset →
      (BI.Span.intoSpanned sp e).len = e.offset - sp.offset + 1) ∧
    (Tok.Span.spannedInto (Tok.Span.new 2 1 1 3) (Tok.Span.new 9 1 1 10)).len = 8 := by
  exact ⟨fun sp e _ => rfl, fun sp e _ => rfl, by decide⟩

/-- Witness for C3 at the literal offsets of the claim. -/
theorem claim_C3_witness :
    Tok.Span.spannedInto (Tok.Span.new 2 1 1 3) (Tok.Span.new 9 1 1 10) =
      Tok.Span.new 2 8 1 3 ∧
    (BI.Span.intoSpanned (BI.Span.new 2 1 1 3) (BI.Span.new 9 1 1 10)).len = 8 := by
  refine ⟨?_, claim_C3.2.1 (BI.Span.new 2 1 1 3) (BI.Span.new 9 1 1 10) (by decide)⟩
  rw [claim_C3.1 (Tok.Span.new 2 1 1 3) (Tok.Span.new 9 1 1 10) (by decide)]
  decide

/-- C10: the tokenizer crate's `Span::is_unknown` ignores the `len` field —
it returns true exactly when offset, line and col are all zero, so
`Span::new(0, 5, 0, 0)` is classified as the unknown sentinel, and
`is_unknown(Span::unknown())` is true. -/
theorem claim_C10 :
    (∀ sp : Tok.Span,
      Tok.Span.isUnknown sp = (sp.offset == 0 && sp.line == 0 && sp.col == 0)) ∧
    Tok.Span.isUnknown (Tok.Span.new 0 5 0 0) = true ∧
    Tok.Span.isUnknown Tok.Span.unknown = true := by
  refine ⟨fun sp => ?_, by decide, by decide⟩
  cases h1 : (sp.offset == 0) <;> cases h2 : (sp.line == 0) <;> cases h3 : (sp.col == 0) <;>
    simp [Tok.Span.isUnknown, h1, h2, h3]

/-- C6: the tokenizer classifies each maximal run by its first byte — an ASCII
whitespace byte yields a `Whitespace` token, an identifier byte (alphanumeric
or underscore, leading digits permitted) yields an `Ident` token whose span
greedily covers the maximal identifier run, and any other byte yields a
`Punct` token of exactly one byte; tokenizing `"ab_3 +"` gives exactly
`Identifier "ab_3"`, `Whitespace " "`, `Punctuation "+"`, in that order. -/
theorem claim_C6 :
    (∀ (it : Tok.BufIter) (b : Tok.Byte), Tok.ItWf it → it.peek = some b →
      (Tok.isWhitespaceB b = true →
        ∃ sp it', Tok.tokenizerNext it = some (.whitespace sp, it')) ∧
      (Tok.isWhitespaceB b = false → Tok.identPeek b = true →
        ∃ sp it', Tok.tokenizerNext it = some (.ident sp, it') ∧
          sp.offset = it.offset ∧
          sp.len = ((it.buf.drop it.offset).takeWhile Tok.identPeek).length) ∧
      (Tok.isWhitespaceB b = false → Tok.identPeek b = false →
        ∃ it', Tok.tokenizerNext it =
          some (.punct (Tok.Span.new it.offset 1 it.line it.col), it'))) ∧
    Tok.tokenize (Tok.strBytes ("ab_3 +")) =
      [.ident (Tok.Span.new 0 4 1 1), .whitespace (Tok.Span.new 4 1 1 5),
        .punct (Tok.Span.new 5 1 1 6)] ∧
    (Tok.Span.new 0 4 1 1).evaluate (Tok.strBytes ("ab_3 +")) = Tok.strBytes ("ab_3") ∧
    (Tok.Span.new 4 1 1 5).evaluate (Tok.strBytes ("ab_3 +")) = Tok.strBytes (" ") ∧
    (Tok.Span.new 5 1 1 6).evaluate (Tok.strBytes ("ab_3 +")) = Tok.strBytes ("+") := by
  refine ⟨?_, by decide, by decide, by decide, by decide⟩
  intro it b hwf hp
  have hstep : Tok.ItWf { it with
      lastSpan := Tok.Span.new it.offset 1 it.line it.col
      offset := it.offset + 1
      line := if b = 10 then it.line + 1 else it.line
      col := if b = 10 then 1 else it.col + 1 } := hwf.next hp
  have hlt : it.offset < it.buf.length := Tok.BufIter.peek_some_lt hp
  have hdrop : it.buf.drop it.offset = b :: it.buf.drop (it.offset + 1) := by
    rw [List.drop_eq_getElem_cons hlt, Tok.BufIter.peek_getElem hp hlt]
  refine ⟨?_, ?_, ?_⟩
  · intro hw
    rw [Tok.tokenizerNext_of_peek hp, if_pos hw, Tok.whitespaceParse_eq hp]
    exact ⟨_, _, rfl⟩
  · intro hw hi
    rw [Tok.tokenizerNext_of_peek hp, if_neg (by rw [hw]; simp), if_pos hi,
      Tok.identParse_eq hp]
    obtain ⟨sp', it2, heq, ho, hl, hc, hlen', htrack, hbuf, hwf', hoff'⟩ :=
      Tok.extendWhileFuel_spec Tok.identPeek _
        (Tok.Span.new it.offset 1 it.line it.col) _ hstep (Nat.le_refl _)
        (by simp [Tok.Span.new]) (by simp [Tok.Span.new])
    rw [show Tok.extendWhile Tok.identPeek (Tok.Span.new it.offset 1 it.line it.col) _
      = (sp', it2) from heq]
    refine ⟨sp', it2, rfl, ?_, ?_⟩
    · exact ho.trans rfl
    · simp [Tok.Span.new] at ho hoff'
      rw [hdrop, List.takeWhile_cons, if_pos hi]
      simp only [List.length_cons]
      omega
  · intro hw hi
    rw [Tok.tokenizerNext_of_peek hp, if_neg (by rw [hw]; simp),
      if_neg (by rw [hi]; simp), Tok.punctParse_eq hp]
    exact ⟨_, rfl⟩

/-- Witness for C6's classification clause at a concrete state: the identifier
run of `"ab"` from the initial cursor. -/
theorem claim_C6_witness :
    ∃ sp it', Tok.tokenizerNext (Tok.BufIter.new (Tok.strBytes ("ab"))) =
      some (.ident sp, it') ∧ sp.offset = 0 ∧ sp.len = 2 := by
  obtain ⟨sp, it', h1, h2, h3⟩ :=
    ((claim_C6.1 (Tok.BufIter.new (Tok.strBytes ("ab"))) 97
      ⟨by decide, by decide, by decide⟩ (by decide)).2.1 (by decide) (by decide))
  exact ⟨sp, it', h1, h2, by rw [h3]; decide⟩

/-! ## Claims about the html grammar on concrete inputs -/

/-- Helper: a `Punct` token whose first evaluated byte equals `x` does not
test equal against a different byte `y`. -/
theorem isPunctByte_ne {buf : List Tok.Byte} {t : Tok.TokenTree} {x y : Tok.Byte}
    (h : Html.isPunctByte buf t x = true) (hxy : x ≠ y) :
    Html.isPunctByte buf t y = false := by
  cases t with
  | ident sp => simp [Html.isPunctByte] at h
  | whitespace sp => simp [Html.isPunctByte] at h
  | punct sp =>
    simp only [Html.isPunctByte, beq_iff_eq] at h
    simp only [Html.isPunctByte, beq_eq_false_iff_ne]
    rw [h]
    exact hxy

/-- C4, behaviour of the code at the failing input: parsing `"hello<div>"`
yields a Text node followed by an Element node, but the Text node's span has
length 6 and evaluates to `"hello<"`, not `"hello"` — because `Text::parse`
extends its span with `iter.span()`, which at that point is the span of the
*peeked* (unconsumed) `<` token. -/
theorem claim_C4_code :
    Html.htmlTokenize (Tok.strBytes ("hello<div>")) =
      ([.text ⟨Tok.Span.new 0 6 1 1⟩,
        .element ⟨.open, Tok.Span.new 5 5 1 6, Tok.Span.new 6 3 1 7⟩], none) ∧
    (Tok.Span.new 0 6 1 1).evaluate (Tok.strBytes ("hello<div>")) =
      Tok.strBytes ("hello<") ∧
    (Tok.Span.new 0 6 1 1).evaluate (Tok.strBytes ("hello<div>")) ≠
      Tok.strBytes ("hello") := by
  refine ⟨by decide, by decide, by decide⟩

/-- C5: the input `"<!-- hi -->"` parses to a single Comment node whose
evaluated text is the entire input; moreover a `-` or `>` outside the exact
terminating `-`,`-`,`>` sequence is treated as ordinary content, as witnessed
by `"<!-- a-b>c -->"` also parsing to a single Comment covering the whole
input. -/
theorem claim_C5 :
    Html.htmlTokenize (Tok.strBytes ("<!-- hi -->")) =
      ([.comment ⟨Tok.Span.new 0 11 1 1⟩], none) ∧
    (Tok.Span.new 0 11 1 1).evaluate (Tok.strBytes ("<!-- hi -->")) =
      Tok.strBytes ("<!-- hi -->") ∧
    Html.htmlTokenize (Tok.strBytes ("<!-- a-b>c -->")) =
      ([.comment ⟨Tok.Span.new 0 14 1 1⟩], none) ∧
    (Tok.Span.new 0 14 1 1).evaluate (Tok.strBytes ("<!-- a-b>c -->")) =
      Tok.strBytes ("<!-- a-b>c -->") := by
  refine ⟨by decide, by decide, by decide, by decide⟩

/-- C7: parsing `"<!-- unterminated"` fails with the "unexpected eof" error
(a token was required but the input was exhausted) and emits no node at all
before the failure. -/
theorem claim_C7 :
    Html.htmlTokenize (Tok.strBytes ("<!-- unterminated")) =
      ([], some ⟨Tok.Span.new 16 1 1 17, "unexpected eof"⟩) := by
  decide

/-- C8: the input `"<div class=\x22a\x22>"` parses to exactly one Element
node with disposition Open, tag span evaluating to `"div"` and node span
evaluating to the whole input; and in `Attr::scan`, an attribute whose
key is followed (before any `=`) by `>` or by another identifier is treated
as valueless — the `=`-scanning loop returns immediately without consuming
the peeked token. -/
theorem claim_C8 :
    Html.htmlTokenize (Tok.strBytes ("<div class=\x22a\x22>")) =
      ([.element ⟨.open, Tok.Span.new 0 15 1 1, Tok.Span.new 1 3 1 2⟩], none) ∧
    (Tok.Span.new 1 3 1 2).evaluate (Tok.strBytes ("<div class=\x22a\x22>")) =
      Tok.strBytes ("div") ∧
    (Tok.Span.new 0 15 1 1).evaluate (Tok.strBytes ("<div class=\x22a\x22>")) =
      Tok.strBytes ("<div class=\x22a\x22>") ∧
    (∀ (buf : List Tok.Byte) (n : Nat) (p p' : Tok.Peekable) (t : Tok.TokenTree),
      Tok.Peekable.peekN p 0 = (some t, p') →
      ((∃ sp, t = .ident sp) → Html.Attr.eqLoop buf (n + 1) p = .ok (false, p')) ∧
      (Html.isPunctByte buf t 62 = true →
        Html.Attr.eqLoop buf (n + 1) p = .ok (false, p'))) := by
  refine ⟨by decide, by decide, by decide, ?_⟩
  intro buf n p p' t hpeek
  constructor
  · rintro ⟨sp, rfl⟩
    simp [Html.Attr.eqLoop, Html.peekT, hpeek, bind, Except.bind]
  · intro h62
    have h61 : Html.isPunctByte buf t 61 = false := isPunctByte_ne h62 (by decide)
    cases t with
    | ident sp => simp [Html.isPunctByte] at h62
    | whitespace sp => simp [Html.isPunctByte] at h62
    | punct sp =>
      simp [Html.Attr.eqLoop, Html.peekT, hpeek, h61, h62, bind, Except.bind]

/-- Witness for C8's valueless-attribute clause at a concrete state: after
peeking the identifier that follows `class` in `"<a class x>"`-like position,
`Attr::scan`'s `=`-loop returns immediately. -/
theorem claim_C8_witness :
    Html.Attr.eqLoop (Tok.strBytes ("x")) 1
        (Tok.Peekable.new 2 (Tok.BufIter.new (Tok.strBytes ("x")))) =
      .ok (false,
        (Tok.Peekable.peekN
          (Tok.Peekable.new 2 (Tok.BufIter.new (Tok.strBytes ("x")))) 0).2) := by
  have h := ((claim_C8.2.2.2 (Tok.strBytes ("x")) 0
      (Tok.Peekable.new 2 (Tok.BufIter.new (Tok.strBytes ("x"))))
      (Tok.Peekable.peekN
        (Tok.Peekable.new 2 (Tok.BufIter.new (Tok.strBytes ("x")))) 0).2
      (.ident (Tok.Span.new 0 1 1 1)) (by decide)).1 ⟨_, rfl⟩)
  exact h

/-! ## Supporting lemmas: the buf-iter cursor -/

namespace BI

theorem BufIter.next_of_get {it : BufIter} {b : Byte}
    (hg : it.buf.get? it.offset = some b) :
    it.next = .ok (b,
      { it with
        offset := it.offset + 1
        line := if b = 10 then it.line + 1 else it.line
        col := if b = 10 then 1 else it.col + 1 }) := by
  unfold BufIter.next
  rw [hg]

theorem BufIter.next_of_get_none {it : BufIter}
    (hg : it.buf.get? it.offset = none) :
    it.next = .error ⟨.eof, it.span⟩ := by
  unfold BufIter.next
  rw [hg]

theorem BufIter.advanceN_succ_ok {it : BufIter} {b : Byte} {it' : BufIter} {n : Nat}
    (h : it.next = .ok (b, it')) :
    it.advanceN (n + 1) = it'.advanceN n := by
  simp only [BufIter.advanceN, h]

theorem BufIter.advanceN_succ_err {it : BufIter} {e : Error} {n : Nat}
    (h : it.next = .error e) :
    it.advanceN (n + 1) = it := by
  simp only [BufIter.advanceN, h]

theorem BufIter.advanceN_zero {it : BufIter} : it.advanceN 0 = it := rfl

/-- The byte delivered by the `(j+1)`-th advance is the byte at index
`offset + j` of the shared buffer, independent of the line/col state. -/
theorem BufIter.byteAt_eq : ∀ (j : Nat) (it : BufIter),
    it.byteAt j = it.buf.get? (it.offset + j) := by
  intro j
  induction j with
  | zero =>
    intro it
    unfold BufIter.byteAt
    rw [BufIter.advanceN_zero, Nat.add_zero]
    cases hg : it.buf.get? it.offset with
    | none => rw [BufIter.next_of_get_none hg]
    | some b => rw [BufIter.next_of_get hg]
  | succ j ih =>
    intro it
    cases hg : it.buf.get? it.offset with
    | none =>
      have hlen : it.buf.length ≤ it.offset := List.get?_eq_none.mp hg
      unfold BufIter.byteAt
      rw [BufIter.advanceN_succ_err (BufIter.next_of_get_none hg),
        BufIter.next_of_get_none hg,
        List.get?_eq_none.mpr (by omega)]
    | some b =>
      have hnext := BufIter.next_of_get hg
      unfold BufIter.byteAt
      rw [BufIter.advanceN_succ_ok hnext]
      have h2 := ih { it with
        offset := it.offset + 1
        line := if b = 10 then it.line + 1 else it.line
        col := if b = 10 then 1 else it.col + 1 }
      unfold BufIter.byteAt at h2
      rw [h2]
      show it.buf.get? (it.offset + 1 + j) = it.buf.get? (it.offset + (j + 1))
      congr 1
      omega

/-- Advancing within bounds moves the offset forward by exactly one per call
and never changes the buffer. -/
theorem BufIter.advanceN_offset : ∀ (k : Nat) (it : BufIter),
    it.offset + k ≤ it.buf.length →
    (it.advanceN k).offset = it.offset + k ∧ (it.advanceN k).buf = it.buf := by
  intro k
  induction k with
  | zero => intro it _; exact ⟨rfl, rfl⟩
  | succ k ih =>
    intro it hk
    have hlt : it.offset < it.buf.length := by omega
    have hg : it.buf.get? it.offset = some (it.buf.get ⟨it.offset, hlt⟩) :=
      List.get?_eq_get hlt
    rw [BufIter.advanceN_succ_ok (BufIter.next_of_get hg)]
    have hrec := ih { it with
      offset := it.offset + 1
      line := if it.buf.get ⟨it.offset, hlt⟩ = 10 then it.line + 1 else it.line
      col := if it.buf.get ⟨it.offset, hlt⟩ = 10 then 1 else it.col + 1 }
      (by simp; omega)
    refine ⟨?_, hrec.2⟩
    rw [hrec.1]
    show it.offset + 1 + k = it.offset + (k + 1)
    omega

end BI

/-! ## Claim C9: checkpoint/resume through `from_span` -/

/-- C9, amended: a cursor built by `from_span` from a Span captured after
`k ≥ 1` advances is positioned at the Span's offset (the index of the last
consumed byte, so that byte is re-read) with line/col taken verbatim from the
captured span, and its subsequent advances return exactly the bytes of the
buffer from that offset — the same bytes a cursor scanned from the beginning
of the buffer returns there.  (The original claim's further assertion that
the forked cursor assigns each byte the same line/column as a from-start scan
is false: the captured span carries the line/col state from after its byte,
see the counterexample.) -/
theorem claim_C9_amended (buf : List BI.Byte) (k : Nat) (h1 : 1 ≤ k)
    (h2 : k ≤ buf.length) :
    (BI.BufIter.fromSpan buf ((BI.BufIter.new buf).advanceN k).span).offset =
      ((BI.BufIter.new buf).advanceN k).span.offset ∧
    (BI.BufIter.fromSpan buf ((BI.BufIter.new buf).advanceN k).span).line =
      ((BI.BufIter.new buf).advanceN k).span.line ∧
    (BI.BufIter.fromSpan buf ((BI.BufIter.new buf).advanceN k).span).col =
      ((BI.BufIter.new buf).advanceN k).span.col ∧
    ((BI.BufIter.new buf).advanceN k).span.offset + 1 = k ∧
    (∀ j, (BI.BufIter.fromSpan buf ((BI.BufIter.new buf).advanceN k).span).byteAt j =
      buf.get? (((BI.BufIter.new buf).advanceN k).span.offset + j)) ∧
    (∀ j, (BI.BufIter.fromSpan buf ((BI.BufIter.new buf).advanceN k).span).byteAt j =
      ((BI.BufIter.new buf).advanceN (((BI.BufIter.new buf).advanceN k).span.offset)).byteAt j) := by
  obtain ⟨hoff, hbuf⟩ := BI.BufIter.advanceN_offset k (BI.BufIter.new buf)
    (by show 0 + k ≤ buf.length; omega)
  have hsp : ((BI.BufIter.new buf).advanceN k).span.offset = k - 1 := by
    show ((BI.BufIter.new buf).advanceN k).offset - 1 = k - 1
    rw [hoff]
    simp [BI.BufIter.new]
  obtain ⟨hoff', hbuf'⟩ :=
    BI.BufIter.advanceN_offset (k - 1) (BI.BufIter.new buf)
    (by show 0 + (k - 1) ≤ buf.length; omega)
  refine ⟨rfl, rfl, rfl, by omega, ?_, ?_⟩
  · intro j
    rw [BI.BufIter.byteAt_eq]
    rfl
  · intro j
    rw [BI.BufIter.byteAt_eq, BI.BufIter.byteAt_eq]
    rw [show (BI.BufIter.fromSpan buf ((BI.BufIter.new buf).advanceN k).span).offset
        = ((BI.BufIter.new buf).advanceN k).span.offset from rfl]
    rw [show (BI.BufIter.fromSpan buf ((BI.BufIter.new buf).advanceN k).span).buf = buf from rfl]
    rw [hsp, hbuf', hoff']
    show buf.get? (k - 1 + j) = buf.get? (0 + (k - 1) + j)
    congr 1
    omega

/-- Witness for C9's amended statement at `buf = "ab"`, `k = 1`: the fork is
positioned at offset 0 and re-reads byte `a`. -/
theorem claim_C9_amended_witness :
    (BI.BufIter.fromSpan (Tok.strBytes ("ab"))
        ((BI.BufIter.new (Tok.strBytes ("ab"))).advanceN 1).span).offset = 0 ∧
    (BI.BufIter.fromSpan (Tok.strBytes ("ab"))
        ((BI.BufIter.new (Tok.strBytes ("ab"))).advanceN 1).span).byteAt 0 = some 97 := by
  have h := claim_C9_amended (Tok.strBytes ("ab")) 1 (by decide) (by decide)
  refine ⟨by rw [h.1]; decide, ?_⟩
  rw [h.2.2.2.2.1 0]
  decide

/-- C9, counterexample to the claim as stated: over the buffer `"ab"`, after
one advance the captured span is `(0, 1, 1, 1)`; the cursor forked from it
re-reads byte 0 and assigns it the span `(0, 1, 1, 2)`, whereas the cursor
scanned from the beginning assigned that same byte the span `(0, 1, 1, 1)` —
the forked cursor does not assign bytes the same line/column. -/
theorem claim_C9_counterexample :
    ((BI.BufIter.fromSpan (Tok.strBytes ("ab"))
        ((BI.BufIter.new (Tok.strBytes ("ab"))).advanceN 1).span).advanceN 1).span ≠
      ((BI.BufIter.new (Tok.strBytes ("ab"))).advanceN 1).span := by
  decide

/-! ## Supporting lemmas: the lookahead buffer (claim C2) -/

namespace Tok

theorem somesPrefix_shape : ∀ (l : List TokenTree) (r : Nat),
    somesPrefix (l.map some ++ List.replicate r none) = l := by
  intro l
  induction l with
  | nil =>
    intro r
    cases r with
    | zero => rfl
    | succ r =>
      show somesPrefix ([] ++ List.replicate (r + 1) none) = []
      rw [List.nil_append, List.replicate_succ]
      unfold somesPrefix
      rw [List.takeWhile_cons]
      simp
  | cons t ts ih =>
    intro r
    show somesPrefix (some t :: (ts.map some ++ List.replicate r none)) = t :: ts
    unfold somesPrefix
    rw [List.takeWhile_cons]
    simp only [Option.isSome_some, if_true, List.reduceOption_cons_of_some]
    have h2 := ih r
    unfold somesPrefix at h2
    rw [h2]

theorem contig_getD_lt {l : List TokenTree} {r i : Nat} (h : i < l.length) :
    (l.map some ++ List.replicate r none).getD i none = some l[i] := by
  rw [List.getD_eq_getElem?_getD, List.getElem?_append]
  rw [if_pos (by simpa using h)]
  simp [List.getElem?_map, List.getElem?_eq_getElem h]

theorem contig_getD_ge {l : List TokenTree} {r i : Nat} (h : l.length ≤ i) :
    (l.map some ++ List.replicate r none).getD i none = none := by
  rw [List.getD_eq_getElem?_getD, List.getElem?_append]
  rw [if_neg (by simp; omega)]
  rw [List.getElem?_replicate]
  split <;> rfl

theorem contig_set {l : List TokenTree} {r : Nat} (t : TokenTree) :
    (l.map some ++ List.replicate (r + 1) none).set l.length (some t) =
      (l ++ [t]).map some ++ List.replicate r none := by
  rw [List.set_append]
  rw [if_neg (by simp)]
  rw [show l.length - (l.map some).length = 0 by simp]
  rw [List.replicate_succ]
  show l.map some ++ (some t :: List.replicate r none) =
    (l ++ [t]).map some ++ List.replicate r none
  simp

/-- Effect of the `peek_n` fill loop on a contiguous buffer, processing the
consecutive indices `i, i+1, …`: the buffered prefix is extended with exactly
the tokens the wrapped tokenizer yields, and nothing is lost or reordered. -/
theorem fillSlots_spec :
    ∀ (m i : Nat) (p : Peekable) (l : List TokenTree) (r : Nat),
      p.peeked = l.map some ++ List.replicate r none →
      i + m ≤ l.length + r →
      i ≤ l.length →
      ∃ (ok : Bool) (l2 : List TokenTree) (r2 : Nat) (it2 : BufIter),
        fillSlots (List.range' i m) p =
          (ok, ⟨it2, (l ++ l2).map some ++ List.replicate r2 none⟩) ∧
        (l ++ l2).length + r2 = l.length + r ∧
        tokenizeFrom p.iter = l2 ++ tokenizeFrom it2 ∧
        it2.buf = p.iter.buf ∧
        (ItWf p.iter → ItWf it2) := by
  intro m
  induction m with
  | zero =>
    intro i p l r hpk _ _
    refine ⟨true, [], r, p.iter, ?_, by simp, by simp, rfl, fun h => h⟩
    rw [show List.range' i 0 = [] from rfl]
    simp only [fillSlots]
    rw [List.append_nil, ← hpk]
  | succ m ih =>
    intro i p l r hpk him hil
    rw [List.range'_succ]
    rcases Nat.lt_or_ge i l.length with hi | hi
    · have hgd : p.peeked.getD i none = some l[i] := by rw [hpk]; exact contig_getD_lt hi
      have hstep : fillSlots (i :: List.range' (i + 1) m) p =
          fillSlots (List.range' (i + 1) m) p := by
        simp only [fillSlots, hgd, Option.isSome_some, if_true]
      rw [hstep]
      exact ih (i + 1) p l r hpk (by omega) (by omega)
    · have hieq : i = l.length := Nat.le_antisymm hil hi
      have hgd : p.peeked.getD i none = none := by rw [hpk]; exact contig_getD_ge hi
      obtain ⟨r', rfl⟩ : ∃ r', r = r' + 1 := ⟨r - 1, by omega⟩
      cases hnx : tokenizerNext p.iter with
      | none =>
        refine ⟨false, [], r' + 1, p.iter, ?_, by simp, by simp, rfl, fun h => h⟩
        have hstep : fillSlots (i :: List.range' (i + 1) m) p = (false, p) := by
          simp only [fillSlots, hgd, Option.isSome_none, Bool.false_eq_true, if_false, hnx]
        rw [hstep]
        show (false, p) = (false, (⟨p.iter, (l ++ []).map some ++ _⟩ : Peekable))
        rw [List.append_nil, ← hpk]
      | some res =>
        obtain ⟨t, it'⟩ := res
        have hset : p.peeked.set i (some t) =
            (l ++ [t]).map some ++ List.replicate r' none := by
          rw [hpk, hieq]; exact contig_set t
        have hstep : fillSlots (i :: List.range' (i + 1) m) p =
            fillSlots (List.range' (i + 1) m) ⟨it', p.peeked.set i (some t)⟩ := by
          simp only [fillSlots, hgd, Option.isSome_none, Bool.false_eq_true, if_false, hnx]
        obtain ⟨ok, l2, r2, it2, heq, hcount, htok, hbuf, hwf⟩ :=
          ih (i + 1) ⟨it', p.peeked.set i (some t)⟩ (l ++ [t]) r'
            hset (by simp; omega) (by simp; omega)
        refine ⟨ok, t :: l2, r2, it2, ?_, ?_, ?_, ?_, ?_⟩
        · rw [hstep, heq]
          rw [show (l ++ [t]) ++ l2 = l ++ (t :: l2) by simp]
        · simp only [List.length_append, List.length_cons] at hcount ⊢
          omega
        · rw [tokenizeFrom_cons hnx, htok]
          rfl
        · rw [hbuf]
          exact (tokenizerNext_advances hnx).1
        · exact fun h => hwf ((tokenizerNext_spec h hnx).2.2.2.2)

/-- Peeking never changes the observable token stream of a contiguous
lookahead buffer (and keeps it contiguous, with the same slot count). -/
theorem peekN_toList {p : Peekable} {n : Nat} (hc : Contig p)
    (hn : n < p.peeked.length) :
    Contig (p.peekN n).2 ∧ (p.peekN n).2.toList = p.toList ∧
      (p.peekN n).2.peeked.length = p.peeked.length ∧
      (p.peekN n).2.iter.buf = p.iter.buf ∧
      (ItWf p.iter → ItWf (p.peekN n).2.iter) := by
  obtain ⟨l, r, hpk⟩ := hc
  have hlen : p.peeked.length = l.length + r := by rw [hpk]; simp
  obtain ⟨ok, l2, r2, it2, heq, hcount, htok, hbuf, hwf⟩ :=
    fillSlots_spec (n + 1) 0 p l r hpk (by omega) (by omega)
  have hpn : p.peekN n = (if ok then ((l ++ l2).map some ++ List.replicate r2 none).getD n none
        else none,
      (⟨it2, (l ++ l2).map some ++ List.replicate r2 none⟩ : Peekable)) := by
    unfold Peekable.peekN
    rw [List.range_eq_range', heq]
    cases ok <;> rfl
  rw [hpn]
  refine ⟨⟨l ++ l2, r2, rfl⟩, ?_, ?_, hbuf, hwf⟩
  · show somesPrefix ((l ++ l2).map some ++ List.replicate r2 none) ++ tokenizeFrom it2 =
      p.toList
    rw [somesPrefix_shape]
    unfold Peekable.toList
    rw [hpk, somesPrefix_shape, htok, List.append_assoc]
  · rw [hlen]
    show ((l ++ l2).map some ++ List.replicate r2 none).length = l.length + r
    simp only [List.length_append, List.length_map, List.length_replicate] at hcount ⊢
    omega

/-- The `next` of a contiguous lookahead buffer yields the head of the
observable stream and leaves its tail, still contiguous with the same slot
count. -/
theorem pnext_toList {p : Peekable} (hc : Contig p) (hlen : 1 ≤ p.peeked.length) :
    (Peekable.next p).1 = p.toList.head? ∧
      (Peekable.next p).2.toList = p.toList.tail ∧
      Contig (Peekable.next p).2 ∧
      (Peekable.next p).2.peeked.length = p.peeked.length ∧
      (Peekable.next p).2.iter.buf = p.iter.buf ∧
      (ItWf p.iter → ItWf (Peekable.next p).2.iter) := by
  obtain ⟨l, r, hpk⟩ := hc
  obtain ⟨it0, pk0⟩ := p
  simp only at hpk hlen
  subst hpk
  cases l with
  | cons t ts =>
    have htail : ((t :: ts).map some ++ List.replicate r none).tail ++ [none] =
        ts.map some ++ List.replicate (r + 1) none := by
      show (ts.map some ++ List.replicate r none) ++ [none] = _
      rw [List.append_assoc, ← List.replicate_succ']
    have hnx : Peekable.next ⟨it0, (t :: ts).map some ++ List.replicate r none⟩ =
        (some t, ⟨it0, ts.map some ++ List.replicate (r + 1) none⟩) := by
      rw [← htail]
      rfl
    rw [hnx]
    refine ⟨?_, ?_, ⟨ts, r + 1, rfl⟩, ?_, rfl, fun h => h⟩
    · show some t = (somesPrefix ((t :: ts).map some ++ List.replicate r none) ++ _).head?
      rw [somesPrefix_shape]
      rfl
    · show somesPrefix (ts.map some ++ List.replicate (r + 1) none) ++ tokenizeFrom it0 =
        (somesPrefix ((t :: ts).map some ++ List.replicate r none) ++ tokenizeFrom it0).tail
      rw [somesPrefix_shape, somesPrefix_shape]
      rfl
    · show (ts.map some ++ List.replicate (r + 1) none).length =
        ((t :: ts).map some ++ List.replicate r none).length
      simp only [List.length_append, List.length_map, List.length_replicate,
        List.length_cons]
      omega
  | nil =>
    obtain ⟨r2, rfl⟩ : ∃ r2, r = r2 + 1 := by
      refine ⟨r - 1, ?_⟩
      simp at hlen
      omega
    have htl : (([] : List TokenTree).map some ++ List.replicate (r2 + 1) none).tail ++ [none] =
        ([] : List TokenTree).map some ++ List.replicate (r2 + 1) none := by
      rw [List.map_nil, List.nil_append, List.replicate_succ]
      show List.replicate r2 (none : Option TokenTree) ++ [none] = _
      rw [← List.replicate_succ']
      rfl
    have hgd : (([] : List TokenTree).map some ++
        List.replicate (r2 + 1) none).getD 0 none = none := by
      rw [List.map_nil, List.nil_append, List.replicate_succ]
      rfl
    cases hnx : tokenizerNext it0 with
    | none =>
      have hn : Peekable.next ⟨it0, ([] : List TokenTree).map some ++
          List.replicate (r2 + 1) none⟩ =
          (none, ⟨it0, ([] : List TokenTree).map some ++ List.replicate (r2 + 1) none⟩) := by
        unfold Peekable.next
        rw [hgd, hnx, htl]
      rw [hn]
      refine ⟨?_, ?_, ⟨[], r2 + 1, rfl⟩, rfl, rfl, fun h => h⟩
      · show none = (somesPrefix _ ++ tokenizeFrom it0).head?
        rw [somesPrefix_shape, tokenizeFrom_nil hnx]
        rfl
      · show somesPrefix _ ++ tokenizeFrom it0 = (somesPrefix _ ++ tokenizeFrom it0).tail
        rw [somesPrefix_shape, tokenizeFrom_nil hnx]
        rfl
    | some res =>
      obtain ⟨t, it'⟩ := res
      have hn : Peekable.next ⟨it0, ([] : List TokenTree).map some ++
          List.replicate (r2 + 1) none⟩ =
          (some t, ⟨it', ([] : List TokenTree).map some ++ List.replicate (r2 + 1) none⟩) := by
        unfold Peekable.next
        rw [hgd, hnx, htl]
      rw [hn]
      refine ⟨?_, ?_, ⟨[], r2 + 1, rfl⟩, rfl, (tokenizerNext_advances hnx).1,
        fun h => (tokenizerNext_spec h hnx).2.2.2.2⟩
      · show some t = (somesPrefix _ ++ tokenizeFrom it0).head?
        rw [somesPrefix_shape, tokenizeFrom_cons hnx]
        rfl
      · show somesPrefix _ ++ tokenizeFrom it' =
          (somesPrefix _ ++ tokenizeFrom it0).tail
        rw [somesPrefix_shape, tokenizeFrom_cons hnx]
        rfl

theorem runOps_outs :
    ∀ (ops : List Op) (p : Peekable), Contig p → 1 ≤ p.peeked.length →
      (∀ n, Op.peekAt n ∈ ops → n < p.peeked.length) →
      (runOps ops p).1 = outsOf (countNexts ops) p.toList := by
  intro ops
  induction ops with
  | nil => intro p _ _ _; rfl
  | cons op rest ih =>
    intro p hc hlen hops
    cases op with
    | peekAt n =>
      obtain ⟨hc', htl, hplen, _, _⟩ :=
        peekN_toList hc (hops n (by simp))
      show (runOps rest (p.peekN n).2).1 = _
      rw [ih (p.peekN n).2 hc' (by omega) (fun m hm => by
        rw [hplen]; exact hops m (List.mem_cons_of_mem _ hm))]
      rw [htl]
      rfl
    | nextOp =>
      obtain ⟨hhead, htail, hc', hplen, _, _⟩ := pnext_toList hc hlen
      show ((Peekable.next p).1 ::
        (runOps rest (Peekable.next p).2).1, _).1 = _
      rw [show countNexts (Op.nextOp :: rest) = countNexts rest + 1 from rfl]
      rw [ih (Peekable.next p).2 hc' (by omega) (fun m hm => by
        rw [hplen]; exact hops m (List.mem_cons_of_mem _ hm))]
      rw [hhead, htail]
      cases htl : p.toList with
      | nil => rfl
      | cons t ts => rfl

theorem directNexts_outs :
    ∀ (k : Nat) (it : BufIter), directNexts k it = outsOf k (tokenizeFrom it) := by
  intro k
  induction k with
  | zero => intro it; cases h : tokenizeFrom it <;> rfl
  | succ k ih =>
    intro it
    cases hnx : tokenizerNext it with
    | none =>
      rw [tokenizeFrom_nil hnx]
      show (match tokenizerNext it with
        | none => none :: directNexts k it
        | some (t, it') => some t :: directNexts k it') = _
      rw [hnx]
      show none :: directNexts k it = none :: outsOf k []
      rw [ih, tokenizeFrom_nil hnx]
    | some res =>
      obtain ⟨t, it'⟩ := res
      rw [tokenizeFrom_cons hnx]
      show (match tokenizerNext it with
        | none => none :: directNexts k it
        | some (t, it') => some t :: directNexts k it') = _
      rw [hnx]
      show some t :: directNexts k it' = some t :: outsOf k (tokenizeFrom it')
      rw [ih]

end Tok

/-! ## Claim C2: the lookahead buffer preserves the token stream -/

/-- C2: for every input buffer and every interleaving of `peek_n`/`next`
calls on a lookahead buffer of any capacity `N ≥ 1` (all peek indices below
`N`), the sequence of results of the `next` calls is identical, in order and
content, to the sequence obtained by calling the underlying tokenizer
directly the same number of times with no peeking: no token is reordered,
duplicated, or dropped. -/
theorem claim_C2 (buf : List Tok.Byte) (N : Nat) (ops : List Tok.Op)
    (hN : 1 ≤ N) (hops : ∀ n, Tok.Op.peekAt n ∈ ops → n < N) :
    (Tok.runOps ops (Tok.Peekable.new N (Tok.BufIter.new buf))).1 =
      Tok.directNexts (Tok.countNexts ops) (Tok.BufIter.new buf) := by
  have hlen : (Tok.Peekable.new N (Tok.BufIter.new buf)).peeked.length = N := by
    simp [Tok.Peekable.new]
  rw [Tok.runOps_outs ops _ ⟨[], N, by simp [Tok.Peekable.new]⟩ (by omega)
    (fun n hn => by rw [hlen]; exact hops n hn)]
  rw [Tok.directNexts_outs]
  show Tok.outsOf _ (Tok.somesPrefix (Tok.Peekable.new N (Tok.BufIter.new buf)).peeked ++
    Tok.tokenizeFrom (Tok.BufIter.new buf)) = _
  rw [show (Tok.Peekable.new N (Tok.BufIter.new buf)).peeked =
    ([] : List Tok.TokenTree).map some ++ List.replicate N none by simp [Tok.Peekable.new]]
  rw [Tok.somesPrefix_shape]
  rfl

/-- Witness for C2 at a concrete input and interleaving: buffer `"a b"`,
capacity 3, peeks at indices 2 and 0 interleaved with four `next` calls. -/
theorem claim_C2_witness :
    (Tok.runOps [.peekAt 2, .nextOp, .peekAt 0, .nextOp, .nextOp, .nextOp]
        (Tok.Peekable.new 3 (Tok.BufIter.new (Tok.strBytes ("a b"))))).1 =
      Tok.directNexts 4 (Tok.BufIter.new (Tok.strBytes ("a b"))) := by
  have h := claim_C2 (Tok.strBytes ("a b")) 3
    [.peekAt 2, .nextOp, .peekAt 0, .nextOp, .nextOp, .nextOp]
    (by decide)
    (by
      intro n hn
      simp at hn
      rcases hn with rfl | rfl <;> decide)
  exact h

/-! ## Supporting lemmas: grammar-state invariant (claim C1) -/

namespace Tok

theorem chainSeg_compose {xs : List TokenTree} :
    ∀ {a b c : Nat} {ys : List TokenTree}, chainSeg a xs b → chainSeg b ys c →
      chainSeg a (xs ++ ys) c := by
  induction xs with
  | nil =>
    intro a b c ys h1 h2
    have : a = b := h1
    rw [List.nil_append, this]
    exact h2
  | cons t ts ih =>
    intro a b c ys h1 h2
    obtain ⟨g1, g2, g3⟩ := h1
    exact ⟨g1, g2, ih g3 h2⟩

theorem chainSeg_split {xs : List TokenTree} :
    ∀ {a c : Nat} {ys : List TokenTree}, chainSeg a (xs ++ ys) c →
      ∃ m, chainSeg a xs m ∧ chainSeg m ys c := by
  induction xs with
  | nil => intro a c ys h; exact ⟨a, rfl, h⟩
  | cons t ts ih =>
    intro a c ys h
    obtain ⟨g1, g2, g3⟩ := h
    obtain ⟨m, hm1, hm2⟩ := ih g3
    exact ⟨m, ⟨g1, g2, hm1⟩, hm2⟩

theorem chainSeg_start_unique {ys : List TokenTree} :
    ∀ {a b c : Nat}, chainSeg a ys c → chainSeg b ys c → a = b := by
  cases ys with
  | nil =>
    intro a b c h1 h2
    have ha : a = c := h1
    have hb : b = c := h2
    omega
  | cons t ts =>
    intro a b c h1 h2
    obtain ⟨g1, _, _⟩ := h1
    obtain ⟨k1, _, _⟩ := h2
    omega

/-- Tokens pulled out of a tokenizer state tile the byte range between the
old and new read positions. -/
theorem tok_split {it it2 : BufIter} {l2 : List TokenTree} (hwf : ItWf it)
    (hwf2 : ItWf it2) (hbuf : it2.buf = it.buf)
    (htok : tokenizeFrom it = l2 ++ tokenizeFrom it2) :
    chainSeg it.offset l2 it2.offset := by
  have h1 := tokenizeFrom_chainSeg hwf
  rw [htok] at h1
  obtain ⟨m, hm1, hm2⟩ := chainSeg_split h1
  have h2 := tokenizeFrom_chainSeg hwf2
  rw [hbuf] at h2
  have : m = it2.offset := chainSeg_start_unique hm2 h2
  rw [← this]
  exact hm1

/-- Peeking preserves the grammar-state invariant at the same position. -/
theorem ginv_peekN {buf : List Byte} {pos : Nat} {p : Peekable} {n : Nat}
    (hg : GInv buf pos p) (hn : n < 4) : GInv buf pos (p.peekN n).2 := by
  obtain ⟨⟨l, r, hpk⟩, hlen, hbuf, hwf, hch⟩ := hg
  have hlr : l.length + r = 4 := by
    rw [hpk] at hlen; simpa using hlen
  obtain ⟨ok, l2, r2, it2, heq, hcount, htok, hbuf2, hwfp⟩ :=
    fillSlots_spec (n + 1) 0 p l r hpk (by omega) (by omega)
  have hpn : (p.peekN n).2 =
      (⟨it2, (l ++ l2).map some ++ List.replicate r2 none⟩ : Peekable) := by
    unfold Peekable.peekN
    rw [List.range_eq_range', heq]
    cases ok <;> rfl
  rw [hpn]
  rw [hpk] at hch
  rw [somesPrefix_shape] at hch
  have hchain2 : chainSeg p.iter.offset l2 it2.offset :=
    tok_split hwf (hwfp hwf) hbuf2 htok
  refine ⟨⟨l ++ l2, r2, rfl⟩, ?_, by rw [show (⟨it2, _⟩ : Peekable).iter = it2 from rfl, hbuf2, hbuf], hwfp hwf, ?_⟩
  · show ((l ++ l2).map some ++ List.replicate r2 none).length = 4
    simp only [List.length_append, List.length_map, List.length_replicate] at hcount ⊢
    omega
  · show chainSeg pos (somesPrefix ((l ++ l2).map some ++ List.replicate r2 none)) it2.offset
    rw [somesPrefix_shape]
    exact chainSeg_compose hch hchain2

/-- A successful `next` on a grammar state yields the token at the current
position and re-establishes the invariant just past it. -/
theorem ginv_pnext_some {buf : List Byte} {pos : Nat} {p : Peekable}
    {t : TokenTree} {p' : Peekable}
    (hg : GInv buf pos p) (h : Peekable.next p = (some t, p')) :
    (TokenTree.span t).offset = pos ∧ 1 ≤ (TokenTree.span t).len ∧
      pos + (TokenTree.span t).len ≤ buf.length ∧
      GInv buf (pos + (TokenTree.span t).len) p' := by
  obtain ⟨⟨l, r, hpk⟩, hlen, hbuf, hwf, hch⟩ := hg
  obtain ⟨it0, pk0⟩ := p
  simp only at hpk hlen hbuf hwf hch
  subst hpk
  rw [somesPrefix_shape] at hch
  cases l with
  | cons u us =>
    have htail : ((u :: us).map some ++ List.replicate r none).tail ++ [none] =
        us.map some ++ List.replicate (r + 1) none := by
      show (us.map some ++ List.replicate r none) ++ [none] = _
      rw [List.append_assoc, ← List.replicate_succ']
    have hnx : Peekable.next ⟨it0, (u :: us).map some ++ List.replicate r none⟩ =
        (some u, ⟨it0, us.map some ++ List.replicate (r + 1) none⟩) := by
      rw [← htail]
      rfl
    rw [hnx] at h
    simp only [Prod.mk.injEq, Option.some.injEq] at h
    obtain ⟨rfl, rfl⟩ := h
    obtain ⟨g1, g2, g3⟩ := hch
    have hle := chainSeg_le g3
    have hlb : it0.buf.length = buf.length := by rw [hbuf]
    refine ⟨g1, g2, by obtain ⟨w1, _, _⟩ := hwf; omega, ⟨us, r + 1, rfl⟩, ?_, hbuf, hwf, ?_⟩
    · show (us.map some ++ List.replicate (r + 1) none).length = 4
      simp only [List.length_append, List.length_map, List.length_replicate] at hlen ⊢
      simp only [List.length_cons] at hlen
      omega
    · show chainSeg (pos + (TokenTree.span u).len) (somesPrefix
        (us.map some ++ List.replicate (r + 1) none)) it0.offset
      rw [somesPrefix_shape]
      exact g3
  | nil =>
    have hpos : pos = it0.offset := hch
    obtain ⟨r2, rfl⟩ : ∃ r2, r = r2 + 1 := by
      refine ⟨r - 1, ?_⟩
      simp only [List.map_nil, List.nil_append, List.length_replicate] at hlen
      omega
    have htl : (([] : List TokenTree).map some ++ List.replicate (r2 + 1) none).tail
        ++ [none] = ([] : List TokenTree).map some ++ List.replicate (r2 + 1) none := by
      rw [List.map_nil, List.nil_append, List.replicate_succ]
      show List.replicate r2 (none : Option TokenTree) ++ [none] = _
      rw [← List.replicate_succ']
      rfl
    have hgd0 : (([] : List TokenTree).map some ++
        List.replicate (r2 + 1) none).getD 0 none = (none : Option TokenTree) := rfl
    cases hnx : tokenizerNext it0 with
    | none =>
      have hn : Peekable.next ⟨it0, ([] : List TokenTree).map some ++
          List.replicate (r2 + 1) none⟩ =
          (none, ⟨it0, ([] : List TokenTree).map some ++ List.replicate (r2 + 1) none⟩) := by
        unfold Peekable.next
        rw [hgd0, hnx, htl]
      rw [hn] at h
      simp at h
    | some res =>
      obtain ⟨u, it'⟩ := res
      have hn : Peekable.next ⟨it0, ([] : List TokenTree).map some ++
          List.replicate (r2 + 1) none⟩ =
          (some u, ⟨it', ([] : List TokenTree).map some ++ List.replicate (r2 + 1) none⟩) := by
        unfold Peekable.next
        rw [hgd0, hnx, htl]
      rw [hn] at h
      simp only [Prod.mk.injEq, Option.some.injEq] at h
      obtain ⟨rfl, rfl⟩ := h
      obtain ⟨s1, s2, s3, s4, s5⟩ := tokenizerNext_spec hwf hnx
      have hlb : it0.buf.length = buf.length := by rw [hbuf]
      rw [hpos]
      refine ⟨s1, s2, ?_, ⟨[], r2 + 1, rfl⟩, hlen, by rw [show (⟨it', _⟩ : Peekable).iter = it' from rfl, s4, hbuf], s5, ?_⟩
      · obtain ⟨w1, _, _⟩ := s5
        rw [s4] at w1
        omega
      · show chainSeg (it0.offset + (TokenTree.span u).len)
          (somesPrefix (([] : List TokenTree).map some ++ List.replicate (r2 + 1) none))
          it'.offset
        rw [somesPrefix_shape]
        show it0.offset + (TokenTree.span u).len = it'.offset
        omega

/-- A `next` returning nothing leaves the invariant at the same position. -/
theorem ginv_pnext_none {buf : List Byte} {pos : Nat} {p : Peekable} {p' : Peekable}
    (hg : GInv buf pos p) (h : Peekable.next p = (none, p')) :
    GInv buf pos p' := by
  obtain ⟨⟨l, r, hpk⟩, hlen, hbuf, hwf, hch⟩ := hg
  obtain ⟨it0, pk0⟩ := p
  simp only at hpk hlen hbuf hwf hch
  subst hpk
  rw [somesPrefix_shape] at hch
  cases l with
  | cons u us =>
    have htail : ((u :: us).map some ++ List.replicate r none).tail ++ [none] =
        us.map some ++ List.replicate (r + 1) none := by
      show (us.map some ++ List.replicate r none) ++ [none] = _
      rw [List.append_assoc, ← List.replicate_succ']
    have hnx : Peekable.next ⟨it0, (u :: us).map some ++ List.replicate r none⟩ =
        (some u, ⟨it0, us.map some ++ List.replicate (r + 1) none⟩) := by
      rw [← htail]
      rfl
    rw [hnx] at h
    simp at h
  | nil =>
    have hpos : pos = it0.offset := hch
    obtain ⟨r2, rfl⟩ : ∃ r2, r = r2 + 1 := by
      refine ⟨r - 1, ?_⟩
      simp only [List.map_nil, List.nil_append, List.length_replicate] at hlen
      omega
    have htl : (([] : List TokenTree).map some ++ List.replicate (r2 + 1) none).tail
        ++ [none] = ([] : List TokenTree).map some ++ List.replicate (r2 + 1) none := by
      rw [List.map_nil, List.nil_append, List.replicate_succ]
      show List.replicate r2 (none : Option TokenTree) ++ [none] = _
      rw [← List.replicate_succ']
      rfl
    have hgd0 : (([] : List TokenTree).map some ++
        List.replicate (r2 + 1) none).getD 0 none = (none : Option TokenTree) := rfl
    cases hnx : tokenizerNext it0 with
    | some res =>
      obtain ⟨u, it'⟩ := res
      have hn : Peekable.next ⟨it0, ([] : List TokenTree).map some ++
          List.replicate (r2 + 1) none⟩ =
          (some u, ⟨it', ([] : List TokenTree).map some ++ List.replicate (r2 + 1) none⟩) := by
        unfold Peekable.next
        rw [hgd0, hnx, htl]
      rw [hn] at h
      simp at h
    | none =>
      have hn : Peekable.next ⟨it0, ([] : List TokenTree).map some ++
          List.replicate (r2 + 1) none⟩ =
          (none, ⟨it0, ([] : List TokenTree).map some ++ List.replicate (r2 + 1) none⟩) := by
        unfold Peekable.next
        rw [hgd0, hnx, htl]
      rw [hn] at h
      simp only [Prod.mk.injEq] at h
      obtain ⟨-, h2⟩ := h
      rw [← h2]
      exact ⟨⟨[], r2 + 1, rfl⟩, hlen, hbuf, hwf, hch⟩

/-- Position of `Peekable::span` under the invariant, once at least one token
has been consumed: it names a byte between `pos - 1` and the end of the
buffer (the front buffered token's start, or the last consumed byte). -/
theorem ginv_span {buf : List Byte} {pos : Nat} {p : Peekable}
    (hg : GInv buf pos p) (hpos : 1 ≤ pos) :
    pos - 1 ≤ (Peekable.span p).offset ∧ (Peekable.span p).offset < buf.length := by
  obtain ⟨⟨l, r, hpk⟩, hlen, hbuf, hwf, hch⟩ := hg
  obtain ⟨it0, pk0⟩ := p
  simp only at hpk hlen hbuf hwf hch
  subst hpk
  rw [somesPrefix_shape] at hch
  obtain ⟨w1, w2, w3⟩ := hwf
  cases l with
  | cons u us =>
    obtain ⟨g1, g2, g3⟩ := hch
    have hle := chainSeg_le g3
    have hsp : Peekable.span ⟨it0, (u :: us).map some ++ List.replicate r none⟩ =
        TokenTree.span u := by
      unfold Peekable.span
      rfl
    rw [hsp, g1]
    constructor
    · omega
    · rw [← hbuf]; omega
  | nil =>
    have hpos2 : pos = it0.offset := hch
    obtain ⟨r2, rfl⟩ : ∃ r2, r = r2 + 1 := by
      refine ⟨r - 1, ?_⟩
      simp only [List.map_nil, List.nil_append, List.length_replicate] at hlen
      omega
    have hsp : Peekable.span ⟨it0, ([] : List TokenTree).map some ++
        List.replicate (r2 + 1) none⟩ = it0.lastSpan := by
      unfold Peekable.span
      rfl
    rw [hsp]
    rw [← hbuf]
    omega

end Tok

namespace Html

open Tok

theorem nextT_ok {p : Peekable} {t : TokenTree} {p' : Peekable}
    (h : nextT p = .ok (t, p')) : Peekable.next p = (some t, p') := by
  unfold nextT at h
  split at h
  · rename_i u q heq
    simp only [Except.ok.injEq, Prod.mk.injEq] at h
    obtain ⟨rfl, rfl⟩ := h
    exact heq
  · exact absurd h (by simp)

theorem expectNext_ok {p : Peekable} {t : TokenTree} {p' : Peekable}
    (h : expectNext p = .ok (t, p')) : Peekable.next p = (some t, p') := by
  unfold expectNext at h
  split at h
  · rename_i u q heq
    simp only [Except.ok.injEq, Prod.mk.injEq] at h
    obtain ⟨rfl, rfl⟩ := h
    exact heq
  · exact absurd h (by simp)

theorem peekT_ok {p : Peekable} {t : TokenTree} {p' : Peekable}
    (h : peekT p = .ok (t, p')) : p' = (Peekable.peekN p 0).2 := by
  unfold peekT at h
  split at h
  · rename_i u q heq
    simp only [Except.ok.injEq, Prod.mk.injEq] at h
    obtain ⟨rfl, rfl⟩ := h
    rw [heq]
  · exact absurd h (by simp)

theorem nextT_ginv {buf : List Byte} {pos : Nat} {p : Peekable} {t : TokenTree}
    {p' : Peekable} (hg : GInv buf pos p) (h : nextT p = .ok (t, p')) :
    (TokenTree.span t).offset = pos ∧ 1 ≤ (TokenTree.span t).len ∧
      pos + (TokenTree.span t).len ≤ buf.length ∧
      GInv buf (pos + (TokenTree.span t).len) p' :=
  ginv_pnext_some hg (nextT_ok h)

theorem expectNext_ginv {buf : List Byte} {pos : Nat} {p : Peekable} {t : TokenTree}
    {p' : Peekable} (hg : GInv buf pos p) (h : expectNext p = .ok (t, p')) :
    (TokenTree.span t).offset = pos ∧ 1 ≤ (TokenTree.span t).len ∧
      pos + (TokenTree.span t).len ≤ buf.length ∧
      GInv buf (pos + (TokenTree.span t).len) p' :=
  ginv_pnext_some hg (expectNext_ok h)

theorem peekT_ginv {buf : List Byte} {pos : Nat} {p : Peekable} {t : TokenTree}
    {p' : Peekable} (hg : GInv buf pos p) (h : peekT p = .ok (t, p')) :
    GInv buf pos p' := by
  rw [peekT_ok h]
  exact ginv_peekN hg (by omega)

theorem peekPunct_ginv {buf : List Byte} {pos : Nat} {p : Peekable} {i : Nat}
    {b : Byte} {bb : Bool} {p' : Peekable} (hg : GInv buf pos p) (hi : i < 4)
    (h : peekPunct p buf i b = (bb, p')) : GInv buf pos p' := by
  unfold peekPunct at h
  split at h
  · rename_i u q heq
    have : p' = q := ((Prod.mk.injEq _ _ _ _ ▸ h).2).symm
    rw [this, show q = (Peekable.peekN p i).2 by rw [heq]]
    exact ginv_peekN hg hi
  · rename_i q heq
    have : p' = q := ((Prod.mk.injEq _ _ _ _ ▸ h).2).symm
    rw [this, show q = (Peekable.peekN p i).2 by rw [heq]]
    exact ginv_peekN hg hi

theorem commentPeek_ginv {buf : List Byte} {pos : Nat} {p : Peekable} {b : Bool}
    {p' : Peekable} (hg : GInv buf pos p) (h : Comment.peek buf p = (b, p')) :
    GInv buf pos p' := by
  unfold Comment.peek at h
  split at h
  · rename_i q heq
    have hg1 := peekPunct_ginv hg (by omega) heq
    have : p' = q := ((Prod.mk.injEq _ _ _ _ ▸ h).2).symm
    rw [this]; exact hg1
  · rename_i q heq
    have hg1 := peekPunct_ginv hg (by omega) heq
    split at h
    · rename_i q2 heq2
      have hg2 := peekPunct_ginv hg1 (by omega) heq2
      have : p' = q2 := ((Prod.mk.injEq _ _ _ _ ▸ h).2).symm
      rw [this]; exact hg2
    · rename_i q2 heq2
      have hg2 := peekPunct_ginv hg1 (by omega) heq2
      split at h
      · rename_i q3 heq3
        have hg3 := peekPunct_ginv hg2 (by omega) heq3
        have : p' = q3 := ((Prod.mk.injEq _ _ _ _ ▸ h).2).symm
        rw [this]; exact hg3
      · rename_i q3 heq3
        have hg3 := peekPunct_ginv hg2 (by omega) heq3
        exact peekPunct_ginv hg3 (by omega) h

theorem doctypePeek_ginv {buf : List Byte} {pos : Nat} {p : Peekable} {b : Bool}
    {p' : Peekable} (hg : GInv buf pos p) (h : DOCTYPE.peek buf p = (b, p')) :
    GInv buf pos p' := by
  unfold DOCTYPE.peek at h
  split at h
  · rename_i q heq
    have hg1 := peekPunct_ginv hg (by omega) heq
    have : p' = q := ((Prod.mk.injEq _ _ _ _ ▸ h).2).symm
    rw [this]; exact hg1
  · rename_i q heq
    have hg1 := peekPunct_ginv hg (by omega) heq
    exact peekPunct_ginv hg1 (by omega) h

theorem elementPeek_ginv {buf : List Byte} {pos : Nat} {p : Peekable} {b : Bool}
    {p' : Peekable} (hg : GInv buf pos p) (h : Element.peek buf p = (b, p')) :
    GInv buf pos p' :=
  peekPunct_ginv hg (by omega) h

theorem doctypeScan_ginv (buf : List Byte) :
    ∀ (n : Nat) (p : Peekable) (pos : Nat) (p'' : Peekable),
      GInv buf pos p → DOCTYPE.scan buf n p = .ok p'' →
      ∃ pos', GInv buf pos' p'' ∧ pos ≤ pos' := by
  intro n
  induction n with
  | zero =>
    intro p pos p'' hg h
    exact absurd h (by simp [DOCTYPE.scan])
  | succ n ih =>
    intro p pos p'' hg h
    simp only [DOCTYPE.scan] at h
    cases hx : nextT p with
    | error e => rw [hx] at h; simp [bind, Except.bind] at h
    | ok r =>
      obtain ⟨t, p1⟩ := r
      rw [hx] at h
      simp only [bind, Except.bind] at h
      obtain ⟨s1, s2, s3, hg1⟩ := nextT_ginv hg hx
      by_cases hb : isPunctByte buf t 62 = true
      · rw [if_pos hb] at h
        simp only [Except.ok.injEq] at h
        subst h
        exact ⟨pos + (TokenTree.span t).len, hg1, by omega⟩
      · rw [if_neg hb] at h
        obtain ⟨pos', hgp, hle⟩ := ih p1 (pos + (TokenTree.span t).len) p'' hg1 h
        exact ⟨pos', hgp, by omega⟩

theorem commentScan_ginv (buf : List Byte) :
    ∀ (n : Nat) (mode : Bool) (p : Peekable) (pos : Nat) (p'' : Peekable),
      GInv buf pos p → Comment.scanLoop buf n mode p = .ok p'' →
      ∃ pos', GInv buf pos' p'' ∧ pos ≤ pos' := by
  intro n
  induction n with
  | zero =>
    intro mode p pos p'' hg h
    cases mode <;> exact absurd h (by simp [Comment.scanLoop])
  | succ n ih =>
    intro mode p pos p'' hg h
    cases mode with
    | false =>
      simp only [Comment.scanLoop] at h
      cases hx : nextT p with
      | error e => rw [hx] at h; simp [bind, Except.bind] at h
      | ok r =>
        obtain ⟨t, p1⟩ := r
        rw [hx] at h
        simp only [bind, Except.bind] at h
        obtain ⟨s1, s2, s3, hg1⟩ := nextT_ginv hg hx
        by_cases hb : isPunctByte buf t 45 = true
        · rw [if_pos hb] at h
          cases hx2 : nextT p1 with
          | error e => rw [hx2] at h; simp [bind, Except.bind] at h
          | ok r2 =>
            obtain ⟨t2, p2⟩ := r2
            rw [hx2] at h
            simp only [bind, Except.bind] at h
            obtain ⟨u1, u2, u3, hg2⟩ := nextT_ginv hg1 hx2
            by_cases hb2 : isPunctByte buf t2 45 = true
            · rw [if_pos hb2] at h
              obtain ⟨pos', hgp, hle⟩ := ih true p2 _ p'' hg2 h
              exact ⟨pos', hgp, by omega⟩
            · rw [if_neg hb2] at h
              obtain ⟨pos', hgp, hle⟩ := ih false p2 _ p'' hg2 h
              exact ⟨pos', hgp, by omega⟩
        · rw [if_neg hb] at h
          obtain ⟨pos', hgp, hle⟩ := ih false p1 _ p'' hg1 h
          exact ⟨pos', hgp, by omega⟩
    | true =>
      simp only [Comment.scanLoop] at h
      cases hx : nextT p with
      | error e => rw [hx] at h; simp [bind, Except.bind] at h
      | ok r =>
        obtain ⟨t, p1⟩ := r
        rw [hx] at h
        simp only [bind, Except.bind] at h
        obtain ⟨s1, s2, s3, hg1⟩ := nextT_ginv hg hx
        by_cases hb : isPunctByte buf t 62 = true
        · rw [if_pos hb] at h
          simp only [Except.ok.injEq] at h
          subst h
          exact ⟨pos + (TokenTree.span t).len, hg1, by omega⟩
        · rw [if_neg hb] at h
          by_cases hb2 : isPunctByte buf t 45 = true
          · rw [if_pos hb2] at h
            obtain ⟨pos', hgp, hle⟩ := ih true p1 _ p'' hg1 h
            exact ⟨pos', hgp, by omega⟩
          · rw [if_neg hb2] at h
            obtain ⟨pos', hgp, hle⟩ := ih false p1 _ p'' hg1 h
            exact ⟨pos', hgp, by omega⟩

theorem scanClose_ginv (buf : List Byte) :
    ∀ (n : Nat) (p : Peekable) (pos : Nat) (p'' : Peekable),
      GInv buf pos p → Element.scanClose buf n p = .ok p'' →
      ∃ pos', GInv buf pos' p'' ∧ pos ≤ pos' := by
  intro n
  induction n with
  | zero =>
    intro p pos p'' hg h
    exact absurd h (by simp [Element.scanClose])
  | succ n ih =>
    intro p pos p'' hg h
    simp only [Element.scanClose] at h
    cases hx : nextT p with
    | error e => rw [hx] at h; simp [bind, Except.bind] at h
    | ok r =>
      obtain ⟨t, p1⟩ := r
      rw [hx] at h
      simp only [bind, Except.bind] at h
      obtain ⟨s1, s2, s3, hg1⟩ := nextT_ginv hg hx
      by_cases hb : isPunctByte buf t 62 = true
      · rw [if_pos hb] at h
        simp only [Except.ok.injEq] at h
        subst h
        exact ⟨pos + (TokenTree.span t).len, hg1, by omega⟩
      · rw [if_neg hb] at h
        cases t with
        | whitespace sp =>
          obtain ⟨pos', hgp, hle⟩ := ih p1 _ p'' hg1 h
          exact ⟨pos', hgp, by omega⟩
        | ident sp => simp at h
        | punct sp => simp at h

theorem keyLoop_ginv (buf : List Byte) :
    ∀ (n : Nat) (p : Peekable) (pos : Nat) (p'' : Peekable),
      GInv buf pos p → Attr.keyLoop buf n p = .ok p'' →
      ∃ pos', GInv buf pos' p'' ∧ pos ≤ pos' := by
  intro n
  induction n with
  | zero =>
    intro p pos p'' hg h
    exact absurd h (by simp [Attr.keyLoop])
  | succ n ih =>
    intro p pos p'' hg h
    simp only [Attr.keyLoop] at h
    cases hx : nextT p with
    | error e => rw [hx] at h; simp [bind, Except.bind] at h
    | ok r =>
      obtain ⟨t, p1⟩ := r
      rw [hx] at h
      simp only [bind, Except.bind] at h
      obtain ⟨s1, s2, s3, hg1⟩ := nextT_ginv hg hx
      cases t with
      | ident sp =>
        simp only [Except.ok.injEq] at h
        subst h
        exact ⟨pos + (TokenTree.span (.ident sp)).len, hg1, by omega⟩
      | whitespace sp =>
        obtain ⟨pos', hgp, hle⟩ := ih p1 _ p'' hg1 h
        exact ⟨pos', hgp, by omega⟩
      | punct sp => simp at h

theorem eqLoop_ginv (buf : List Byte) :
    ∀ (n : Nat) (p : Peekable) (pos : Nat) (bb : Bool) (p'' : Peekable),
      GInv buf pos p → Attr.eqLoop buf n p = .ok (bb, p'') →
      ∃ pos', GInv buf pos' p'' ∧ pos ≤ pos' := by
  intro n
  induction n with
  | zero =>
    intro p pos bb p'' hg h
    exact absurd h (by simp [Attr.eqLoop])
  | succ n ih =>
    intro p pos bb p'' hg h
    simp only [Attr.eqLoop] at h
    cases hx : peekT p with
    | error e => rw [hx] at h; simp [bind, Except.bind] at h
    | ok r =>
      obtain ⟨t, p1⟩ := r
      rw [hx] at h
      simp only [bind, Except.bind] at h
      have hg1 : GInv buf pos p1 := peekT_ginv hg hx
      cases t with
      | punct sp =>
        by_cases hb : isPunctByte buf (.punct sp) 61 = true
        · rw [if_pos hb] at h
          cases hx2 : expectNext p1 with
          | error e => rw [hx2] at h; simp [bind, Except.bind] at h
          | ok r2 =>
            obtain ⟨t2, p2⟩ := r2
            rw [hx2] at h
            simp only [bind, Except.bind, Except.ok.injEq, Prod.mk.injEq] at h
            obtain ⟨rfl, rfl⟩ := h
            obtain ⟨u1, u2, u3, hg2⟩ := expectNext_ginv hg1 hx2
            exact ⟨pos + (TokenTree.span t2).len, hg2, by omega⟩
        · rw [if_neg hb] at h
          by_cases hb2 : isPunctByte buf (.punct sp) 62 = true
          · rw [if_pos hb2] at h
            simp only [Except.ok.injEq, Prod.mk.injEq] at h
            obtain ⟨rfl, rfl⟩ := h
            exact ⟨pos, hg1, Nat.le_refl _⟩
          · rw [if_neg hb2] at h
            simp at h
      | whitespace sp =>
        cases hx2 : expectNext p1 with
        | error e => rw [hx2] at h; simp [bind, Except.bind] at h
        | ok r2 =>
          obtain ⟨t2, p2⟩ := r2
          rw [hx2] at h
          simp only [bind, Except.bind] at h
          obtain ⟨u1, u2, u3, hg2⟩ := expectNext_ginv hg1 hx2
          obtain ⟨pos', hgp, hle⟩ := ih p2 _ bb p'' hg2 h
          exact ⟨pos', hgp, by omega⟩
      | ident sp =>
        simp only [Except.ok.injEq, Prod.mk.injEq] at h
        obtain ⟨rfl, rfl⟩ := h
        exact ⟨pos, hg1, Nat.le_refl _⟩

theorem openQuoteLoop_ginv (buf : List Byte) :
    ∀ (n : Nat) (p : Peekable) (pos : Nat) (p'' : Peekable),
      GInv buf pos p → Attr.openQuoteLoop buf n p = .ok p'' →
      ∃ pos', GInv buf pos' p'' ∧ pos ≤ pos' := by
  intro n
  induction n with
  | zero =>
    intro p pos p'' hg h
    exact absurd h (by simp [Attr.openQuoteLoop])
  | succ n ih =>
    intro p pos p'' hg h
    simp only [Attr.openQuoteLoop] at h
    cases hx : peekT p with
    | error e => rw [hx] at h; simp [bind, Except.bind] at h
    | ok r =>
      obtain ⟨t, p1⟩ := r
      rw [hx] at h
      simp only [bind, Except.bind] at h
      have hg1 : GInv buf pos p1 := peekT_ginv hg hx
      cases t with
      | punct sp =>
        by_cases hb : isPunctByte buf (.punct sp) 34 = true
        · rw [if_pos hb] at h
          cases hx2 : expectNext p1 with
          | error e => rw [hx2] at h; simp [bind, Except.bind] at h
          | ok r2 =>
            obtain ⟨t2, p2⟩ := r2
            rw [hx2] at h
            simp only [bind, Except.bind, Except.ok.injEq] at h
            subst h
            obtain ⟨u1, u2, u3, hg2⟩ := expectNext_ginv hg1 hx2
            exact ⟨pos + (TokenTree.span t2).len, hg2, by omega⟩
        · rw [if_neg hb] at h
          simp at h
      | ident sp => simp at h
      | whitespace sp =>
        cases hx2 : expectNext p1 with
        | error e => rw [hx2] at h; simp [bind, Except.bind] at h
        | ok r2 =>
          obtain ⟨t2, p2⟩ := r2
          rw [hx2] at h
          simp only [bind, Except.bind] at h
          obtain ⟨u1, u2, u3, hg2⟩ := expectNext_ginv hg1 hx2
          obtain ⟨pos', hgp, hle⟩ := ih p2 _ p'' hg2 h
          exact ⟨pos', hgp, by omega⟩

theorem closeQuoteLoop_ginv (buf : List Byte) :
    ∀ (n : Nat) (p : Peekable) (pos : Nat) (p'' : Peekable),
      GInv buf pos p → Attr.closeQuoteLoop buf n p = .ok p'' →
      ∃ pos', GInv buf pos' p'' ∧ pos ≤ pos' := by
  intro n
  induction n with
  | zero =>
    intro p pos p'' hg h
    exact absurd h (by simp [Attr.closeQuoteLoop])
  | succ n ih =>
    intro p pos p'' hg h
    simp only [Attr.closeQuoteLoop] at h
    cases hx : nextT p with
    | error e => rw [hx] at h; simp [bind, Except.bind] at h
    | ok r =>
      obtain ⟨t, p1⟩ := r
      rw [hx] at h
      simp only [bind, Except.bind] at h
      obtain ⟨s1, s2, s3, hg1⟩ := nextT_ginv hg hx
      by_cases hb : isPunctByte buf t 34 = true
      · rw [if_pos hb] at h
        simp only [Except.ok.injEq] at h
        subst h
        exact ⟨pos + (TokenTree.span t).len, hg1, by omega⟩
      · rw [if_neg hb] at h
        obtain ⟨pos', hgp, hle⟩ := ih p1 _ p'' hg1 h
        exact ⟨pos', hgp, by omega⟩

theorem attrScan_ginv {buf : List Byte} {p : Peekable} {pos : Nat} {p'' : Peekable}
    (hg : GInv buf pos p) (h : Attr.scan buf p = .ok p'') :
    ∃ pos', GInv buf pos' p'' ∧ pos ≤ pos' := by
  unfold Attr.scan at h
  cases hx : Attr.keyLoop buf (fuelOf buf) p with
  | error e => rw [hx] at h; simp [bind, Except.bind] at h
  | ok p1 =>
    rw [hx] at h
    simp only [bind, Except.bind] at h
    obtain ⟨pos1, hg1, hle1⟩ := keyLoop_ginv buf _ p pos p1 hg hx
    cases hx2 : Attr.eqLoop buf (fuelOf buf) p1 with
    | error e => rw [hx2] at h; simp [bind, Except.bind] at h
    | ok r2 =>
      obtain ⟨proceed, p2⟩ := r2
      rw [hx2] at h
      simp only [bind, Except.bind] at h
      obtain ⟨pos2, hg2, hle2⟩ := eqLoop_ginv buf _ p1 pos1 proceed p2 hg1 hx2
      cases proceed with
      | true =>
        rw [if_pos rfl] at h
        cases hx3 : Attr.openQuoteLoop buf (fuelOf buf) p2 with
        | error e => rw [hx3] at h; simp [bind, Except.bind] at h
        | ok p3 =>
          rw [hx3] at h
          simp only [bind, Except.bind] at h
          obtain ⟨pos3, hg3, hle3⟩ := openQuoteLoop_ginv buf _ p2 pos2 p3 hg2 hx3
          obtain ⟨pos4, hg4, hle4⟩ := closeQuoteLoop_ginv buf _ p3 pos3 p'' hg3 h
          exact ⟨pos4, hg4, by omega⟩
      | false =>
        rw [if_neg (by simp)] at h
        simp only [Except.ok.injEq] at h
        subst h
        exact ⟨pos2, hg2, by omega⟩

theorem attrLoop_ginv (buf : List Byte) :
    ∀ (n : Nat) (p : Peekable) (pos : Nat) (p'' : Peekable),
      GInv buf pos p → Element.attrLoop buf n p = .ok p'' →
      ∃ pos', GInv buf pos' p'' ∧ pos ≤ pos' := by
  intro n
  induction n with
  | zero =>
    intro p pos p'' hg h
    exact absurd h (by simp [Element.attrLoop])
  | succ n ih =>
    intro p pos p'' hg h
    simp only [Element.attrLoop] at h
    cases hx : peekT p with
    | error e => rw [hx] at h; simp [bind, Except.bind] at h
    | ok r =>
      obtain ⟨t, p1⟩ := r
      rw [hx] at h
      simp only [bind, Except.bind] at h
      have hg1 : GInv buf pos p1 := peekT_ginv hg hx
      by_cases hb : isPunctByte buf t 62 = true
      · rw [if_pos hb] at h
        simp only [Except.ok.injEq] at h
        subst h
        exact ⟨pos, hg1, Nat.le_refl _⟩
      · rw [if_neg hb] at h
        cases t with
        | whitespace sp =>
          cases hx2 : expectNext p1 with
          | error e => rw [hx2] at h; simp [bind, Except.bind] at h
          | ok r2 =>
            obtain ⟨t2, p2⟩ := r2
            rw [hx2] at h
            simp only [bind, Except.bind] at h
            obtain ⟨u1, u2, u3, hg2⟩ := expectNext_ginv hg1 hx2
            obtain ⟨pos', hgp, hle⟩ := ih p2 _ p'' hg2 h
            exact ⟨pos', hgp, by omega⟩
        | ident sp =>
          cases hx2 : Attr.scan buf p1 with
          | error e => rw [hx2] at h; simp [bind, Except.bind] at h
          | ok p2 =>
            rw [hx2] at h
            simp only [bind, Except.bind] at h
            obtain ⟨pos2, hg2, hle2⟩ := attrScan_ginv hg1 hx2
            obtain ⟨pos', hgp, hle⟩ := ih p2 _ p'' hg2 h
            exact ⟨pos', hgp, by omega⟩
        | punct sp =>
          cases hx2 : Attr.scan buf p1 with
          | error e => rw [hx2] at h; simp [bind, Except.bind] at h
          | ok p2 =>
            rw [hx2] at h
            simp only [bind, Except.bind] at h
            obtain ⟨pos2, hg2, hle2⟩ := attrScan_ginv hg1 hx2
            obtain ⟨pos', hgp, hle⟩ := ih p2 _ p'' hg2 h
            exact ⟨pos', hgp, by omega⟩

theorem textScan_ginv (buf : List Byte) :
    ∀ (n : Nat) (p : Peekable) (pos : Nat) (p'' : Peekable),
      GInv buf pos p → Text.scan buf n p = .ok p'' →
      ∃ pos', GInv buf pos' p'' ∧ pos ≤ pos' := by
  intro n
  induction n with
  | zero =>
    intro p pos p'' hg h
    exact absurd h (by simp [Text.scan])
  | succ n ih =>
    intro p pos p'' hg h
    simp only [Text.scan] at h
    split at h
    · rename_i t p1 heq
      have hg1 : GInv buf pos p1 := by
        rw [show p1 = (Peekable.peekN p 0).2 by rw [heq]]
        exact ginv_peekN hg (by omega)
      by_cases hb : isPunctByte buf t 60 = true
      · rw [if_pos hb] at h
        simp only [Except.ok.injEq] at h
        subst h
        exact ⟨pos, hg1, Nat.le_refl _⟩
      · rw [if_neg hb] at h
        cases hx2 : expectNext p1 with
        | error e => rw [hx2] at h; simp [bind, Except.bind] at h
        | ok r2 =>
          obtain ⟨t2, p2⟩ := r2
          rw [hx2] at h
          simp only [bind, Except.bind] at h
          obtain ⟨u1, u2, u3, hg2⟩ := expectNext_ginv hg1 hx2
          obtain ⟨pos', hgp, hle⟩ := ih p2 _ p'' hg2 h
          exact ⟨pos', hgp, by omega⟩
    · rename_i p1 heq
      have hg1 : GInv buf pos p1 := by
        rw [show p1 = (Peekable.peekN p 0).2 by rw [heq]]
        exact ginv_peekN hg (by omega)
      simp only [Except.ok.injEq] at h
      subst h
      exact ⟨pos, hg1, Nat.le_refl _⟩

theorem commentParse_spec {buf : List Byte} {pos : Nat} {p : Peekable}
    {c : Comment} {p'' : Peekable} (hg : GInv buf pos p)
    (h : Comment.parse buf p = .ok (c, p'')) :
    c.span.offset + c.span.len ≤ buf.length ∧ ∃ pos', GInv buf pos' p'' := by
  unfold Comment.parse at h
  cases hx1 : expectNext p with
  | error e => rw [hx1] at h; simp [bind, Except.bind] at h
  | ok r1 =>
    obtain ⟨t0, p1⟩ := r1
    rw [hx1] at h
    simp only [bind, Except.bind] at h
    obtain ⟨s1, s2, s3, hg1⟩ := expectNext_ginv hg hx1
    cases hx2 : expectNext p1 with
    | error e => rw [hx2] at h; simp [bind, Except.bind] at h
    | ok r2 =>
      obtain ⟨t2, p2⟩ := r2
      rw [hx2] at h
      simp only [bind, Except.bind] at h
      obtain ⟨-, u2, -, hg2⟩ := expectNext_ginv hg1 hx2
      cases hx3 : expectNext p2 with
      | error e => rw [hx3] at h; simp [bind, Except.bind] at h
      | ok r3 =>
        obtain ⟨t3, p3⟩ := r3
        rw [hx3] at h
        simp only [bind, Except.bind] at h
        obtain ⟨-, u3, -, hg3⟩ := expectNext_ginv hg2 hx3
        cases hx4 : expectNext p3 with
        | error e => rw [hx4] at h; simp [bind, Except.bind] at h
        | ok r4 =>
          obtain ⟨t4, p4⟩ := r4
          rw [hx4] at h
          simp only [bind, Except.bind] at h
          obtain ⟨-, u4, -, hg4⟩ := expectNext_ginv hg3 hx4
          cases hx5 : Comment.scanLoop buf (fuelOf buf) false p4 with
          | error e => rw [hx5] at h; simp [bind, Except.bind] at h
          | ok p5 =>
            rw [hx5] at h
            simp only [bind, Except.bind, Except.ok.injEq, Prod.mk.injEq] at h
            obtain ⟨hc, hp⟩ := h
            subst hp
            obtain ⟨pos5, hg5, hle5⟩ := commentScan_ginv buf _ false p4 _ p5 hg4 hx5
            obtain ⟨w1, w2⟩ := ginv_span hg5 (by omega)
            refine ⟨?_, pos5, hg5⟩
            rw [← hc]
            show ((TokenTree.span t0).spannedInto (Peekable.span p5)).offset +
              ((TokenTree.span t0).spannedInto (Peekable.span p5)).len ≤ buf.length
            simp only [Span.spannedInto]
            omega

theorem doctypeParse_spec {buf : List Byte} {pos : Nat} {p : Peekable}
    {d : DOCTYPE} {p'' : Peekable} (hg : GInv buf pos p)
    (h : DOCTYPE.parse buf p = .ok (d, p'')) :
    d.span.offset + d.span.len ≤ buf.length ∧ ∃ pos', GInv buf pos' p'' := by
  unfold DOCTYPE.parse at h
  cases hx1 : expectNext p with
  | error e => rw [hx1] at h; simp [bind, Except.bind] at h
  | ok r1 =>
    obtain ⟨t0, p1⟩ := r1
    rw [hx1] at h
    simp only [bind, Except.bind] at h
    obtain ⟨s1, s2, s3, hg1⟩ := expectNext_ginv hg hx1
    cases hx2 : expectNext p1 with
    | error e => rw [hx2] at h; simp [bind, Except.bind] at h
    | ok r2 =>
      obtain ⟨t2, p2⟩ := r2
      rw [hx2] at h
      simp only [bind, Except.bind] at h
      obtain ⟨-, u2, -, hg2⟩ := expectNext_ginv hg1 hx2
      cases hx3 : DOCTYPE.scan buf (fuelOf buf) p2 with
      | error e => rw [hx3] at h; simp [bind, Except.bind] at h
      | ok p3 =>
        rw [hx3] at h
        simp only [bind, Except.bind, Except.ok.injEq, Prod.mk.injEq] at h
        obtain ⟨hc, hp⟩ := h
        subst hp
        obtain ⟨pos3, hg3, hle3⟩ := doctypeScan_ginv buf _ p2 _ p3 hg2 hx3
        obtain ⟨w1, w2⟩ := ginv_span hg3 (by omega)
        refine ⟨?_, pos3, hg3⟩
        rw [← hc]
        show ((TokenTree.span t0).spannedInto (Peekable.span p3)).offset +
          ((TokenTree.span t0).spannedInto (Peekable.span p3)).len ≤ buf.length
        simp only [Span.spannedInto]
        omega

theorem textParse_spec {buf : List Byte} {pos : Nat} {p : Peekable}
    {tx : Text} {p'' : Peekable} (hg : GInv buf pos p)
    (h : Text.parse buf p = .ok (tx, p'')) :
    tx.span.offset + tx.span.len ≤ buf.length ∧ ∃ pos', GInv buf pos' p'' := by
  unfold Text.parse at h
  cases hx1 : expectNext p with
  | error e => rw [hx1] at h; simp [bind, Except.bind] at h
  | ok r1 =>
    obtain ⟨t0, p1⟩ := r1
    rw [hx1] at h
    simp only [bind, Except.bind] at h
    obtain ⟨s1, s2, s3, hg1⟩ := expectNext_ginv hg hx1
    cases hx2 : Text.scan buf (fuelOf buf) p1 with
    | error e => rw [hx2] at h; simp [bind, Except.bind] at h
    | ok p2 =>
      rw [hx2] at h
      simp only [bind, Except.bind, Except.ok.injEq, Prod.mk.injEq] at h
      obtain ⟨hc, hp⟩ := h
      subst hp
      obtain ⟨pos2, hg2, hle2⟩ := textScan_ginv buf _ p1 _ p2 hg1 hx2
      obtain ⟨w1, w2⟩ := ginv_span hg2 (by omega)
      refine ⟨?_, pos2, hg2⟩
      rw [← hc]
      show ((TokenTree.span t0).spannedInto (Peekable.span p2)).offset +
        ((TokenTree.span t0).spannedInto (Peekable.span p2)).len ≤ buf.length
      simp only [Span.spannedInto]
      omega

theorem elementParse_spec {buf : List Byte} {pos : Nat} {p : Peekable}
    {e : Element} {p'' : Peekable} (hg : GInv buf pos p)
    (h : Element.parse buf p = .ok (e, p'')) :
    e.span.offset + e.span.len ≤ buf.length ∧
      e.tagSpan.offset + e.tagSpan.len ≤ buf.length ∧
      ∃ pos', GInv buf pos' p'' := by
  unfold Element.parse at h
  cases hx1 : expectNext p with
  | error er => rw [hx1] at h; simp [bind, Except.bind] at h
  | ok r1 =>
    obtain ⟨lt, p1⟩ := r1
    rw [hx1] at h
    simp only [bind, Except.bind] at h
    obtain ⟨s1, s2, s3, hg1⟩ := expectNext_ginv hg hx1
    cases hx2 : nextT p1 with
    | error er => rw [hx2] at h; simp [bind, Except.bind] at h
    | ok r2 =>
      obtain ⟨t1, p2⟩ := r2
      rw [hx2] at h
      simp only [bind, Except.bind] at h
      obtain ⟨u1, u2, u3, hg2⟩ := nextT_ginv hg1 hx2
      cases t1 with
      | ident sp =>
        simp only [bind, Except.bind] at h
        cases hx4 : Element.attrLoop buf (fuelOf buf) p2 with
        | error er => rw [hx4] at h; simp [bind, Except.bind] at h
        | ok p4 =>
          rw [hx4] at h
          simp only [bind, Except.bind] at h
          obtain ⟨pos4, hg4, hle4⟩ := attrLoop_ginv buf _ p2 _ p4 hg2 hx4
          cases hx5 : expectNext p4 with
          | error er => rw [hx5] at h; simp [bind, Except.bind] at h
          | ok r5 =>
            obtain ⟨gt, p5⟩ := r5
            rw [hx5] at h
            simp only [bind, Except.bind, Except.ok.injEq, Prod.mk.injEq] at h
            obtain ⟨hc, hp⟩ := h
            subst hp
            obtain ⟨-, v2, -, hg5⟩ := expectNext_ginv hg4 hx5
            obtain ⟨w1, w2⟩ := ginv_span hg5 (by omega)
            refine ⟨?_, ?_, _, hg5⟩
            · rw [← hc]
              show ((TokenTree.span lt).spannedInto (Peekable.span p5)).offset +
                ((TokenTree.span lt).spannedInto (Peekable.span p5)).len ≤ buf.length
              simp only [Span.spannedInto]
              omega
            · rw [← hc]
              show (TokenTree.span (.ident sp)).offset +
                (TokenTree.span (.ident sp)).len ≤ buf.length
              omega
      | whitespace sp =>
        simp [isPunctByte, bind, Except.bind] at h
      | punct sp =>
        by_cases hb : isPunctByte buf (.punct sp) 47 = true
        · simp only [hb, if_true, bind, Except.bind] at h
          cases hx3 : nextT p2 with
          | error er => rw [hx3] at h; simp at h
          | ok r3 =>
            obtain ⟨t2, p3⟩ := r3
            rw [hx3] at h
            obtain ⟨v1, v2, v3, hg3⟩ := nextT_ginv hg2 hx3
            cases t2 with
            | ident sp2 =>
              simp only [] at h
              cases hx4 : Element.scanClose buf (fuelOf buf) p3 with
              | error er => rw [hx4] at h; simp at h
              | ok p4 =>
                rw [hx4] at h
                simp only [Except.ok.injEq, Prod.mk.injEq] at h
                obtain ⟨hc, hp⟩ := h
                subst hp
                obtain ⟨pos4, hg4, hle4⟩ := scanClose_ginv buf _ p3 _ p4 hg3 hx4
                obtain ⟨w1, w2⟩ := ginv_span hg4 (by omega)
                refine ⟨?_, ?_, _, hg4⟩
                · rw [← hc]
                  show ((TokenTree.span lt).spannedInto (Peekable.span p4)).offset +
                    ((TokenTree.span lt).spannedInto (Peekable.span p4)).len ≤ buf.length
                  simp only [Span.spannedInto]
                  omega
                · rw [← hc]
                  show (TokenTree.span (.ident sp2)).offset +
                    (TokenTree.span (.ident sp2)).len ≤ buf.length
                  omega
            | whitespace sp2 => simp at h
            | punct sp2 => simp at h
        · simp only [hb, Bool.false_eq_true, if_false, bind, Except.bind] at h
          simp at h

theorem htmlNext_ok {buf : List Byte} {pos : Nat} {p : Peekable}
    {node : SyntaxTree} {p' : Peekable} (hg : GInv buf pos p)
    (h : htmlNext buf p = some (.ok (node, p'))) :
    (∀ sp ∈ SyntaxTree.spans node, sp.offset + sp.len ≤ buf.length) ∧
      ∃ pos', GInv buf pos' p' := by
  unfold htmlNext at h
  split at h
  · rename_i p1 heq
    have hg1 := commentPeek_ginv hg heq
    cases hp : Comment.parse buf p1 with
    | error er => rw [hp] at h; simp [Except.map] at h
    | ok r =>
      obtain ⟨c, p2⟩ := r
      rw [hp] at h
      simp only [Except.map, Option.some.injEq, Except.ok.injEq, Prod.mk.injEq] at h
      obtain ⟨hn, hp2⟩ := h
      subst hp2
      obtain ⟨hb, pos2, hg2⟩ := commentParse_spec hg1 hp
      refine ⟨?_, pos2, hg2⟩
      intro sp hsp
      rw [← hn] at hsp
      simp only [SyntaxTree.spans, List.mem_singleton] at hsp
      subst hsp
      exact hb
  · rename_i p1 heq
    split at h
    · rename_i p2 heq2
      have hg2 := doctypePeek_ginv (commentPeek_ginv hg heq) heq2
      cases hp : DOCTYPE.parse buf p2 with
      | error er => rw [hp] at h; simp [Except.map] at h
      | ok r =>
        obtain ⟨d, p3⟩ := r
        rw [hp] at h
        simp only [Except.map, Option.some.injEq, Except.ok.injEq, Prod.mk.injEq] at h
        obtain ⟨hn, hp3⟩ := h
        subst hp3
        obtain ⟨hb, pos3, hg3⟩ := doctypeParse_spec hg2 hp
        refine ⟨?_, pos3, hg3⟩
        intro sp hsp
        rw [← hn] at hsp
        simp only [SyntaxTree.spans, List.mem_singleton] at hsp
        subst hsp
        exact hb
    · rename_i p2 heq2
      split at h
      · rename_i p3 heq3
        have hg3 := elementPeek_ginv (doctypePeek_ginv (commentPeek_ginv hg heq) heq2) heq3
        cases hp : Element.parse buf p3 with
        | error er => rw [hp] at h; simp [Except.map] at h
        | ok r =>
          obtain ⟨el, p4⟩ := r
          rw [hp] at h
          simp only [Except.map, Option.some.injEq, Except.ok.injEq, Prod.mk.injEq] at h
          obtain ⟨hn, hp4⟩ := h
          subst hp4
          obtain ⟨hb1, hb2, pos4, hg4⟩ := elementParse_spec hg3 hp
          refine ⟨?_, pos4, hg4⟩
          intro sp hsp
          rw [← hn] at hsp
          simp only [SyntaxTree.spans, List.mem_cons, List.mem_singleton,
            List.not_mem_nil, or_false] at hsp
          rcases hsp with rfl | rfl
          · exact hb1
          · exact hb2
      · rename_i p3 heq3
        have hg3 := elementPeek_ginv (doctypePeek_ginv (commentPeek_ginv hg heq) heq2) heq3
        split at h
        · rename_i t p4 heq4
          have hg4 : GInv buf pos p4 := by
            rw [show p4 = (Peekable.peekN p3 0).2 by rw [heq4]]
            exact ginv_peekN hg3 (by omega)
          cases hp : Text.parse buf p4 with
          | error er => rw [hp] at h; simp [Except.map] at h
          | ok r =>
            obtain ⟨tx, p5⟩ := r
            rw [hp] at h
            simp only [Except.map, Option.some.injEq, Except.ok.injEq, Prod.mk.injEq] at h
            obtain ⟨hn, hp5⟩ := h
            subst hp5
            obtain ⟨hb, pos5, hg5⟩ := textParse_spec hg4 hp
            refine ⟨?_, pos5, hg5⟩
            intro sp hsp
            rw [← hn] at hsp
            simp only [SyntaxTree.spans, List.mem_singleton] at hsp
            subst hsp
            exact hb
        · exact absurd h (by simp)

theorem drive_spec (buf : List Byte) :
    ∀ (n : Nat) (p : Peekable) (pos : Nat), GInv buf pos p →
      ∀ node ∈ (drive buf n p).1, ∀ sp ∈ SyntaxTree.spans node,
        sp.offset + sp.len ≤ buf.length := by
  intro n
  induction n with
  | zero =>
    intro p pos hg node hn
    exact absurd hn (by simp [drive])
  | succ n ih =>
    intro p pos hg node hn
    simp only [drive] at hn
    cases hx : htmlNext buf p with
    | none => rw [hx] at hn; exact absurd hn (by simp)
    | some r =>
      cases r with
      | error er => rw [hx] at hn; exact absurd hn (by simp)
      | ok r2 =>
        obtain ⟨nd, p'⟩ := r2
        rw [hx] at hn
        simp only [List.mem_cons] at hn
        obtain ⟨hb, pos', hg'⟩ := htmlNext_ok hg hx
        rcases hn with rfl | hn
        · exact hb
        · exact ih p' pos' hg' node hn

theorem evaluate_length {sp : Span} {buf : List Byte}
    (h : sp.offset + sp.len ≤ buf.length) :
    (sp.evaluate buf).length = sp.len := by
  unfold Span.evaluate
  rw [List.length_take, List.length_drop]
  omega

theorem ginv_init (buf : List Byte) :
    GInv buf 0 (Peekable.new 4 (BufIter.new buf)) := by
  refine ⟨⟨[], 4, by simp [Peekable.new]⟩, by simp [Peekable.new], rfl,
    ⟨Nat.zero_le _, by show (0 : Nat) + 1 = max 0 1; rfl, rfl⟩, ?_⟩
  show chainSeg 0 (somesPrefix (List.replicate 4 none)) 0
  rw [show List.replicate 4 (none : Option TokenTree) =
    ([] : List TokenTree).map some ++ List.replicate 4 none by simp]
  rw [somesPrefix_shape]
  rfl

end Html

/-! ## Claim C1: every produced span stays inside the buffer -/

/-- C1: for every input buffer, every span carried by a token the tokenizer
produces or by a syntax node the grammar produces (under any driver fuel,
including the canonical `htmlTokenize` run) satisfies
`offset + len ≤ buffer length`, and evaluating such a span returns the
subslice of the buffer at `offset` with exactly `len` bytes — slicing never
reaches outside the buffer. -/
theorem claim_C1 (buf : List Tok.Byte) :
    (∀ t ∈ Tok.tokenize buf,
      (Tok.TokenTree.span t).offset + (Tok.TokenTree.span t).len ≤ buf.length ∧
      ((Tok.TokenTree.span t).evaluate buf).length = (Tok.TokenTree.span t).len) ∧
    (∀ fuel : Nat, ∀ node ∈ (Html.drive buf fuel
        (Tok.Peekable.new 4 (Tok.BufIter.new buf))).1,
      ∀ sp ∈ Html.SyntaxTree.spans node,
        sp.offset + sp.len ≤ buf.length ∧ (sp.evaluate buf).length = sp.len) := by
  constructor
  · intro t ht
    have hwf : Tok.ItWf (Tok.BufIter.new buf) :=
      ⟨Nat.zero_le _, by simp [Tok.BufIter.new, Tok.Span.new], rfl⟩
    have hch := Tok.tokenizeFrom_chainSeg hwf
    have hm := Tok.chainSeg_mem hch ht
    have hb : (Tok.TokenTree.span t).offset + (Tok.TokenTree.span t).len ≤ buf.length := by
      obtain ⟨-, -, h3⟩ := hm
      exact h3
    exact ⟨hb, Html.evaluate_length hb⟩
  · intro fuel node hn sp hsp
    have hb := Html.drive_spec buf fuel _ 0 (Html.ginv_init buf) node hn sp hsp
    exact ⟨hb, Html.evaluate_length hb⟩

/-- Witness for C1 at the concrete buffer `"a<b>"`: the identifier token at
offset 0 and the Text node produced by the grammar. -/
theorem claim_C1_witness :
    ((Tok.TokenTree.span (.ident (Tok.Span.new 0 1 1 1))).offset +
        (Tok.TokenTree.span (.ident (Tok.Span.new 0 1 1 1))).len ≤
        (Tok.strBytes ("a<b>")).length ∧
      ((Tok.TokenTree.span (.ident (Tok.Span.new 0 1 1 1))).evaluate
        (Tok.strBytes ("a<b>"))).length =
        (Tok.TokenTree.span (.ident (Tok.Span.new 0 1 1 1))).len) ∧
    ((Tok.Span.new 0 2 1 1).offset + (Tok.Span.new 0 2 1 1).len ≤
        (Tok.strBytes ("a<b>")).length ∧
      ((Tok.Span.new 0 2 1 1).evaluate (Tok.strBytes ("a<b>"))).length =
        (Tok.Span.new 0 2 1 1).len) := by
  refine ⟨(claim_C1 (Tok.strBytes ("a<b>"))).1 (.ident (Tok.Span.new 0 1 1 1)) (by decide),
    ?_⟩
  exact (claim_C1 (Tok.strBytes ("a<b>"))).2 5 (.text ⟨Tok.Span.new 0 2 1 1⟩) (by decide)
    (Tok.Span.new 0 2 1 1) (by decide)
